import Mathlib

/-!
# Migration file resolution and version journal

A shallow embedding of `file/file.go` and of `driver/bash/bash.go`: the
resolver (`Pending`, `Applied`, `Relative`), the discovery of migration files
(`ReadMigrationFiles`, `parseFilenameSchema`), the journal of the bash driver
(`Initialize`, `writeVersions`, `addVersion`, `removeVersion`, `Version`,
`Migrate`) and the statements the specification makes about them.

Conventions of the embedding

* a Go slice is a `List`; a `nil` slice and an empty slice are both `[]`;
* a method with a pointer receiver that changes the receiver returns the new
  receiver as the first component of its result;
* an `error` result is an `Option Error`, `none` being `nil`;
* a run-time panic is the `panicked` outcome of `Outcome`;
* what the operating system gives to a call (the entries of a directory, the
  content of a file, the result of a process) is an argument of the call;
* Go's `int` is the 64-bit two's complement integer: an `Int` in
  `[minInt, maxInt]`, with `wrapInt` applied where the arithmetic can overflow.
-/

namespace Migrate

/-! ## Data model -/

/-- Modelled from the spec: the package `migrate/direction` is not part of the
sources; the spec gives `Direction` as the enum of the two directions. -/
inductive Direction where
  | Up
  | Down
deriving DecidableEq, Repr

/-- The Go type `Version uint64`. -/
abbrev Version := Nat

/-- The Go type `Versions []Version`. -/
abbrev Versions := List Version

/-- The errors the embedded functions build; each constructor keeps the
arguments of the format string of the source. -/
inductive Error where
  /-- the error of `ioutil.ReadDir` -/
  | readDir (msg : String)
  /-- `"duplicate migration file version %d : %q and %q"` -/
  | duplicateVersion (version : Version) (existing : String) (file : String)
  /-- `"Unable to parse filename schema"` -/
  | parseSchema
  /-- `"Unable to parse version '%v' in filename schema"` -/
  | parseVersion (match0 : String)
  /-- `"Unable to parse up|down '%v' in filename schema"` -/
  | parseDirection (match3 : String)
deriving DecidableEq, Repr

/-- The Go struct `File`; `Content` is a byte slice. -/
structure File where
  Path : String
  FileName : String
  Version : Version
  Name : String
  Content : List Nat
  Direction : Direction
deriving DecidableEq, Repr

/-- The Go type `Files []File`. -/
abbrev Files := List File

/-- The Go struct `MigrationFile`; a `nil` pointer is `none`. -/
structure MigrationFile where
  Version : Version
  UpFile : Option File
  DownFile : Option File
deriving DecidableEq, Repr

/-- The Go type `MigrationFiles []MigrationFile`. -/
abbrev MigrationFiles := List MigrationFile

/-- How a call ends: it returns a value or it panics. -/
inductive Outcome (α : Type) where
  | returned (val : α)
  | panicked
deriving DecidableEq, Repr

/-! ## Versions -/

/-- `func (versions Versions) Contains(version Version) bool` -/
def Versions.Contains : Versions → Version → Bool
  | [], _ => false
  | v :: rest, version => if v == version then true else Versions.Contains rest version

/-! ## sort.Sort

`sort.Sort` belongs to the Go standard library.  On a slice of fewer than
twelve elements it runs `insertionSort`:

    for i := a + 1; i < b; i++ {
        for j := i; j > a && data.Less(j, j-1); j-- { data.Swap(j, j-1) }
    }

which is what is embedded here.  The sorted front of the slice is held in
reverse, so that its head is the left neighbour of the element moved.

On a longer slice the library runs another algorithm; its result is a sorted
permutation of the slice all the same, and two of those are equal when the
keys are pairwise distinct (`eq_of_perm_of_pairwise_lt`). -/

/-- The inner loop: `x` moves left past every neighbour it is `less` than.
The argument and the result are the reversed front of the slice. -/
def sortInsert {α : Type} (less : α → α → Bool) (x : α) : List α → List α
  | [] => [x]
  | y :: ys => if less x y then y :: sortInsert less x ys else x :: y :: ys

/-- The outer loop over the elements, left to right. -/
def sortLoop {α : Type} (less : α → α → Bool) : List α → List α → List α
  | [], front => front
  | x :: rest, front => sortLoop less rest (sortInsert less x front)

/-- `sort.Sort(data)` with `data.Less(i, j) = less data[i] data[j]`. -/
def sortSort {α : Type} (less : α → α → Bool) (data : List α) : List α :=
  (sortLoop less data []).reverse

/-- `func (mf MigrationFiles) Less(i, j int) bool` -/
def MigrationFiles.Less (a b : MigrationFile) : Bool := decide (a.Version < b.Version)

/-- `sort.Reverse(mf).Less(i, j)`, which is `mf.Less(j, i)`. -/
def MigrationFiles.ReverseLess (a b : MigrationFile) : Bool := MigrationFiles.Less b a

/-- `func (v Versions) Less(i, j int) bool` -/
def Versions.Less (a b : Version) : Bool := decide (a < b)

/-! ## The resolver -/

/-- The loop of `Pending` over the sorted receiver. -/
def Pending.loop (versions : Versions) : List MigrationFile → Files → Files
  | [], files => files
  | migrationFile :: rest, files =>
    match !Versions.Contains versions migrationFile.Version, migrationFile.UpFile with
    | true, some up => Pending.loop versions rest (files ++ [up])
    | _, _ => Pending.loop versions rest files

/-- `func (mf *MigrationFiles) Pending(versions Versions) (Files, error)`;
the first component is the receiver after the call. -/
def Pending (mf : MigrationFiles) (versions : Versions) :
    MigrationFiles × Files × Option Error :=
  let mf := sortSort MigrationFiles.Less mf
  (mf, Pending.loop versions mf [], none)

/-- The loop of `Applied` over the receiver sorted in reverse. -/
def Applied.loop (versions : Versions) : List MigrationFile → Files → Files
  | [], files => files
  | migrationFile :: rest, files =>
    match Versions.Contains versions migrationFile.Version, migrationFile.DownFile with
    | true, some down => Applied.loop versions rest (files ++ [down])
    | _, _ => Applied.loop versions rest files

/-- `func (mf *MigrationFiles) Applied(versions Versions) (Files, error)`;
the first component is the receiver after the call. -/
def Applied (mf : MigrationFiles) (versions : Versions) :
    MigrationFiles × Files × Option Error :=
  let mf := sortSort MigrationFiles.ReverseLess mf
  (mf, Applied.loop versions mf [], none)

/-- The least value of Go's `int`. -/
def minInt : Int := -9223372036854775808

/-- The greatest value of Go's `int`. -/
def maxInt : Int := 9223372036854775807

/-- Reduction of an integer to the range of Go's `int`. -/
def wrapInt (x : Int) : Int := (x + 9223372036854775808) % 18446744073709551616 - 9223372036854775808

/-- The unary minus of Go on `int`. -/
def negInt (x : Int) : Int := wrapInt (-x)

/-- The slice expression `files[:n]`: it panics unless `0 ≤ n ≤ cap(files)`.
`Relative` reaches it with `n ≤ len(files)` only, so the length stands for the
capacity. -/
def sliceTo (files : Files) (n : Int) : Outcome Files :=
  if 0 ≤ n ∧ n ≤ (files.length : Int) then Outcome.returned (files.take n.toNat)
  else Outcome.panicked

/-- The last two statements of `Relative`: the clamp and the slicing. -/
def Relative.finish (relativeN : Int) (files : Files) (err : Option Error) :
    Outcome (Files × Option Error) :=
  let relativeN := if relativeN > (files.length : Int) then (files.length : Int) else relativeN
  match sliceTo files relativeN with
  | Outcome.returned fs => Outcome.returned (fs, err)
  | Outcome.panicked => Outcome.panicked

/-- `func (mf *MigrationFiles) Relative(relativeN int, versions Versions) (Files, error)`;
the first component is the receiver after the call. -/
def Relative (mf : MigrationFiles) (relativeN : Int) (versions : Versions) :
    MigrationFiles × Outcome (Files × Option Error) :=
  if relativeN > 0 then
    let r := Pending mf versions
    (r.1, Relative.finish relativeN r.2.1 r.2.2)
  else if relativeN < 0 then
    let relativeN := negInt relativeN
    let r := Applied mf versions
    (r.1, Relative.finish relativeN r.2.1 r.2.2)
  else
    (mf, Outcome.returned ([], none))

/-! ## strconv.ParseUint

`strconv.ParseUint(s, 10, 0)` belongs to the Go standard library; with base 10
and bit size 0 (the 64 bits of `uint`) its body is

    if s == "" { return 0, syntaxError }
    cutoff = maxUint64/10 + 1;  maxVal = 1<<64 - 1
    for _, c := range []byte(s) {
        d = c - '0' when '0' <= c <= '9', a syntax error for every other byte
        if n >= cutoff { return maxVal, rangeError }
        n *= 10
        n1 := n + uint64(d)
        if n1 < n || n1 > maxVal { return maxVal, rangeError }
        n = n1
    }
    return n, nil
-/

/-- The two errors of `strconv.ParseUint`. -/
inductive NumError where
  | badDigit
  | outOfRange
deriving DecidableEq, Repr

/-- The constant `maxUint64/10 + 1` of `strconv.ParseUint`. -/
def ParseUint.cutoff : Nat := 1844674407370955162

/-- The constant `1<<64 - 1` of `strconv.ParseUint`. -/
def ParseUint.maxVal : Nat := 18446744073709551615

/-- The loop of `strconv.ParseUint` over the characters, `n` being the value so far. -/
def ParseUint.loop : List Char → Nat → Except NumError Nat
  | [], n => Except.ok n
  | c :: cs, n =>
    if c.isDigit then
      let d := c.toNat - 48
      if n ≥ ParseUint.cutoff then Except.error NumError.outOfRange
      else
        let n := n * 10
        let n1 := (n + d) % 18446744073709551616
        if n1 < n ∨ n1 > ParseUint.maxVal then Except.error NumError.outOfRange
        else ParseUint.loop cs n1
    else Except.error NumError.badDigit

/-- `strconv.ParseUint(s, 10, 0)` -/
def ParseUint (s : String) : Except NumError Nat :=
  if s.data = [] then Except.error NumError.badDigit else ParseUint.loop s.data 0

/-- The number a string of decimal digits denotes. -/
def digitsValue (ds : List Char) (n : Nat) : Nat :=
  ds.foldl (fun acc c => acc * 10 + (c.toNat - 48)) n

/-! ## The file name pattern -/

/-- A compiled regular expression, `*regexp.Regexp`, as far as the sources use
it: its method `FindStringSubmatch`, whose result is `[]` when the expression
does not match and the whole match followed by the groups when it does. -/
structure Regexp where
  FindStringSubmatch : String → List String

/-- Removal of a suffix: `some front` when `s = front ++ suffix`. -/
def dropSuffix? (suffix s : List Char) : Option (List Char) :=
  if suffix.isSuffixOf s then some (s.take (s.length - suffix.length)) else none

/-- `FindStringSubmatch` of `^([0-9]+)_(.*)\.(up|down)\.EXT$` for an extension
`EXT` without operators of the regular-expression language.  A match has one
decomposition only: group 1 is the longest run of digits at the start, which
an underscore follows; the text ends in `.up.EXT` or in `.down.EXT`, which
fixes group 3; group 2 is what lies between and holds no newline, which `.`
does not match (`findFilenameSubmatch_wellformed`, `findFilenameSubmatch_sound`). -/
def findFilenameSubmatch (filenameExtension : String) (s : String) : List String :=
  match s.data.span Char.isDigit with
  | (digits, '_' :: body) =>
    if digits = [] ∨ '\n' ∈ body then []
    else
      match dropSuffix? (".up." ++ filenameExtension).data body with
      | some label => [s, String.mk digits, String.mk label, "up"]
      | none =>
        match dropSuffix? (".down." ++ filenameExtension).data body with
        | some label => [s, String.mk digits, String.mk label, "down"]
        | none => []
  | _ => []

/-- `func FilenameRegex(filenameExtension string) *regexp.Regexp`, for an
extension made of letters and digits (the bash driver gives `sh`). -/
def FilenameRegex (filenameExtension : String) : Regexp :=
  { FindStringSubmatch := findFilenameSubmatch filenameExtension }

/-- `func parseFilenameSchema(filename string, filenameRegex *regexp.Regexp)
(version Version, name string, d direction.Direction, err error)` -/
def parseFilenameSchema (filename : String) (filenameRegex : Regexp) :
    Except Error (Version × String × Direction) :=
  let matched := filenameRegex.FindStringSubmatch filename
  if matched.length ≠ 4 then Except.error Error.parseSchema
  else
    match ParseUint (matched.getD 1 "") with
    | Except.error _ => Except.error (Error.parseVersion (matched.getD 0 ""))
    | Except.ok version =>
      if matched.getD 3 "" = "up" then Except.ok (version, matched.getD 2 "", Direction.Up)
      else if matched.getD 3 "" = "down" then Except.ok (version, matched.getD 2 "", Direction.Down)
      else Except.error (Error.parseDirection (matched.getD 3 ""))

/-! ## ReadMigrationFiles -/

/-- The local struct `tmpFile` of `ReadMigrationFiles`. -/
structure tmpFile where
  version : Version
  name : String
  filename : String
  d : Direction
deriving DecidableEq, Repr

/-- The map `tmpFileMap`, by its lookups: `tmpFileMap[version][d]`, `none` when
a key is missing. -/
abbrev TmpFileMap := Version → Direction → Option tmpFile

/-- The first loop of `ReadMigrationFiles`, over the directory entries. -/
def ReadMigrationFiles.scan (filenameRegex : Regexp) :
    List String → List tmpFile → TmpFileMap → Except Error (List tmpFile)
  | [], tmpFiles, _ => Except.ok tmpFiles
  | file :: rest, tmpFiles, tmpFileMap =>
    match parseFilenameSchema file filenameRegex with
    | Except.ok (version, name, d) =>
      match tmpFileMap version d with
      | none =>
        ReadMigrationFiles.scan filenameRegex rest
          (tmpFiles ++ [{ version := version, name := name, filename := file, d := d }])
          (fun v e => if v = version ∧ e = d
            then some { version := version, name := name, filename := file, d := d }
            else tmpFileMap v e)
      | some existing => Except.error (Error.duplicateVersion version existing.filename file)
    | Except.error _ => ReadMigrationFiles.scan filenameRegex rest tmpFiles tmpFileMap

/-- The `File` literal of the second loop. -/
def ReadMigrationFiles.side (path : String) (version : Version) (file : tmpFile)
    (d : Direction) : File :=
  { Path := path, FileName := file.filename, Version := version, Name := file.name,
    Content := [], Direction := d }

/-- The body of the second loop for one `file`: the `MigrationFile` appended.
The `default` case of the switch on `file.d` needs a direction other than the
two of `Direction` and is not reached. -/
def ReadMigrationFiles.unit (path : String) (tmpFiles : List tmpFile) (file : tmpFile) :
    MigrationFile :=
  let migrationFile : MigrationFile := { Version := file.version, UpFile := none, DownFile := none }
  match file.d with
  | Direction.Up =>
    let migrationFile := { migrationFile with
      UpFile := some (ReadMigrationFiles.side path file.version file Direction.Up) }
    match tmpFiles.find? (fun file2 => file2.version == file.version && file2.d == Direction.Down) with
    | some file2 => { migrationFile with
        DownFile := some (ReadMigrationFiles.side path file.version file2 Direction.Down) }
    | none => migrationFile
  | Direction.Down =>
    let migrationFile := { migrationFile with
      DownFile := some (ReadMigrationFiles.side path file.version file Direction.Down) }
    match tmpFiles.find? (fun file2 => file2.version == file.version && file2.d == Direction.Up) with
    | some file2 => { migrationFile with
        UpFile := some (ReadMigrationFiles.side path file.version file2 Direction.Up) }
    | none => migrationFile

/-- The second loop of `ReadMigrationFiles`; `parsedVersions` holds the keys of
the map of that name. -/
def ReadMigrationFiles.pair (path : String) (tmpFiles : List tmpFile) :
    List tmpFile → List Version → MigrationFiles → MigrationFiles
  | [], _, newFiles => newFiles
  | file :: rest, parsedVersions, newFiles =>
    if file.version ∈ parsedVersions then
      ReadMigrationFiles.pair path tmpFiles rest parsedVersions newFiles
    else
      ReadMigrationFiles.pair path tmpFiles rest (parsedVersions ++ [file.version])
        (newFiles ++ [ReadMigrationFiles.unit path tmpFiles file])

/-- `func ReadMigrationFiles(path string, filenameRegex *regexp.Regexp)
(files MigrationFiles, err error)`; `readDir` is what `ioutil.ReadDir(path)`
returns: the names of the entries of the directory, or an error. -/
def ReadMigrationFiles (path : String) (readDir : Except String (List String))
    (filenameRegex : Regexp) : MigrationFiles × Option Error :=
  match readDir with
  | Except.error msg => ([], some (Error.readDir msg))
  | Except.ok ioFiles =>
    match ReadMigrationFiles.scan filenameRegex ioFiles [] (fun _ _ => none) with
    | Except.error err => ([], some err)
    | Except.ok tmpFiles =>
      (sortSort MigrationFiles.Less (ReadMigrationFiles.pair path tmpFiles tmpFiles [] []), none)

/-! ## The bash driver: formatted input and output

`fmt.Fprintf` and `fmt.Fscanf` belong to the Go standard library.  The driver
calls them with the format `"%d\n"` and a `uint64` only, which is what is
embedded: the verb `%d` writes the decimal numeral of the value; on input it
skips blanks other than a newline, reads the longest run of decimal digits,
hands it to `strconv.ParseUint`, and the newline of the format then matches
blanks followed by a newline or by the end of the input. -/

/-- The digits of `%d`, as `strconv` writes them: from the last digit to the
first, in front of `acc`. -/
def formatUint.loop : Nat → Nat → List Char → List Char
  | 0, _, acc => acc
  | fuel + 1, n, acc =>
    let acc := Char.ofNat (48 + n % 10) :: acc
    if n / 10 = 0 then acc else formatUint.loop fuel (n / 10) acc

/-- The decimal numeral of `n`, the output of the verb `%d`. -/
def formatUint (n : Nat) : List Char := formatUint.loop (n + 1) n []

/-- The function `isSpace` of package `fmt`, with its table of ranges. -/
def isSpace (c : Char) : Bool :=
  let r := c.toNat
  (0x0009 ≤ r ∧ r ≤ 0x000d) ∨ r = 0x0020 ∨ r = 0x0085 ∨ r = 0x00a0 ∨ r = 0x1680 ∨
  (0x2000 ≤ r ∧ r ≤ 0x200a) ∨ (0x2028 ≤ r ∧ r ≤ 0x2029) ∨ r = 0x202f ∨ r = 0x205f ∨
  r = 0x3000

/-- The method `SkipSpace` of the scanner of `fmt.Fscanf`, for which a newline
is not a blank: `none` is its error `unexpected newline`. -/
def SkipSpace : List Char → Option (List Char)
  | [] => some []
  | r :: rest =>
    if r = '\r' ∧ rest.head? = some '\n' then SkipSpace rest
    else if r = '\n' then none
    else if !isSpace r then some (r :: rest)
    else SkipSpace rest

/-- `fmt.Fscanf(rFile, "%d\n", &version)` on the unread part of the file: the
version and what is left unread, or `none` for every error, the end of the
file included. -/
def Fscanf (rFile : List Char) : Option (Version × List Char) :=
  match SkipSpace rFile with
  | none => none
  | some [] => none
  | some (r :: rest) =>
    match (r :: rest).span Char.isDigit with
    | (tok, rest) =>
      if tok = [] then none
      else
        match ParseUint (String.mk tok) with
        | Except.error _ => none
        | Except.ok version =>
          match rest.dropWhile (fun c => isSpace c && c != '\n') with
          | [] => some (version, [])
          | c :: rest => if c = '\n' then some (version, rest) else none

/-- `strings.Split(s, sep)` for a separator of one character. -/
def stringsSplit (sep : Char) : List Char → List (List Char)
  | [] => [[]]
  | c :: cs =>
    if c = sep then [] :: stringsSplit sep cs
    else
      match stringsSplit sep cs with
      | [] => [[c]]
      | part :: parts => (c :: part) :: parts

/-! ## The bash driver -/

/-- The Go struct `Driver`, without its mutex: the calls are taken one at a
time. -/
structure Driver where
  versionFile : String
  versions : Versions
deriving DecidableEq, Repr

/-- The errors of the operating system the driver returns. -/
inductive DriverError where
  /-- the error of `os.Create` -/
  | create (msg : String)
deriving DecidableEq, Repr

/-- The slice expression `s[:hi]`. -/
def sliceUpTo {α : Type} (s : List α) (hi : Int) : Outcome (List α) :=
  if 0 ≤ hi ∧ hi ≤ (s.length : Int) then Outcome.returned (s.take hi.toNat)
  else Outcome.panicked

/-- The slice expression `s[lo:]`. -/
def sliceFrom {α : Type} (s : List α) (lo : Int) : Outcome (List α) :=
  if 0 ≤ lo ∧ lo ≤ (s.length : Int) then Outcome.returned (s.drop lo.toNat)
  else Outcome.panicked

/-- The index expression `s[i]`. -/
def indexAt {α : Type} (s : List α) (i : Int) : Outcome α :=
  if 0 ≤ i then
    match s.get? i.toNat with
    | some x => Outcome.returned x
    | none => Outcome.panicked
  else Outcome.panicked

/-- The text `writeVersions` writes for the sorted versions, one `Fprintf` each. -/
def Driver.writeVersions.loop : Versions → List Char → List Char
  | [], wFile => wFile
  | version :: rest, wFile =>
    Driver.writeVersions.loop rest (wFile ++ (formatUint version ++ ['\n']))

/-- `func (driver *Driver) writeVersions() error`; `createErr` is the error of
`os.Create`, and the writes to a created file are taken to succeed.  The
result is the receiver after the call, the content of the version file when
it was created, and the error. -/
def Driver.writeVersions (driver : Driver) (createErr : Option String) :
    Driver × Option String × Option DriverError :=
  match createErr with
  | some msg => (driver, none, some (DriverError.create msg))
  | none =>
    let driver := { driver with versions := sortSort Versions.Less driver.versions }
    (driver, some (String.mk (Driver.writeVersions.loop driver.versions [])), none)

/-- `func (driver *Driver) addVersion(v file.Version)` -/
def Driver.addVersion (driver : Driver) (v : Version) : Driver :=
  { driver with versions := driver.versions ++ [v] }

/-- The function literal of `removeVersion`: the index of the first `v`, or -1. -/
def Driver.removeVersion.index (v : Version) : Versions → Int → Int
  | [], _ => -1
  | ver :: rest, i => if ver == v then i else Driver.removeVersion.index v rest (i + 1)

/-- `func (driver *Driver) removeVersion(v file.Version)` -/
def Driver.removeVersion (driver : Driver) (v : Version) : Outcome Driver :=
  let index := Driver.removeVersion.index v driver.versions 0
  if index < 0 then Outcome.returned driver
  else
    match sliceUpTo driver.versions index, sliceFrom driver.versions (index + 1) with
    | Outcome.returned front, Outcome.returned back =>
      Outcome.returned { driver with versions := front ++ back }
    | _, _ => Outcome.panicked

/-- The loop of `Initialize` over the opened file.  Every round that goes on
reads a digit at least, so the length of the file and one bound the rounds. -/
def Driver.Initialize.loop : Nat → List Char → Versions → Versions
  | 0, _, versions => versions
  | fuel + 1, rFile, versions =>
    match Fscanf rFile with
    | none => versions
    | some (version, rest) => Driver.Initialize.loop fuel rest (versions ++ [version])

/-- `func (driver *Driver) Initialize(url string) error`; `openFile` gives the
content of the file `os.Open` opens, `none` when it returns an error.  The
call panics at `urlParts[1]` when the url has no colon. -/
def Driver.Initialize (driver : Driver) (url : String) (openFile : String → Option String) :
    Outcome (Driver × Option DriverError) :=
  let driver := { driver with versions := [] }
  let urlParts := stringsSplit ':' url.data
  match indexAt urlParts 1 with
  | Outcome.panicked => Outcome.panicked
  | Outcome.returned part =>
    let driver := { driver with versionFile := String.mk part }
    match openFile driver.versionFile with
    | none => Outcome.returned (driver, none)
    | some content =>
      let versions := Driver.Initialize.loop (content.data.length + 1) content.data driver.versions
      Outcome.returned ({ driver with versions := sortSort Versions.Less versions }, none)

/-- `func (driver *Driver) Close() error` -/
def Driver.Close (driver : Driver) (createErr : Option String) :
    Driver × Option String × Option DriverError :=
  Driver.writeVersions driver createErr

/-- `func (driver *Driver) Version() (file.Version, error)` -/
def Driver.Version (driver : Driver) : Outcome (Migrate.Version × Option DriverError) :=
  match indexAt driver.versions ((driver.versions.length : Int) - 1) with
  | Outcome.returned v => Outcome.returned (v, none)
  | Outcome.panicked => Outcome.panicked

/-- What the run of the script gives to `Migrate`: the errors of
`cmd.StdoutPipe` and `cmd.Start`, the output and the error of
`ioutil.ReadAll(stdout)`, and the error of `cmd.Wait`, which is not nil when
the script exits with a failure. -/
structure ScriptRun where
  pipeErr : Option String
  startErr : Option String
  output : String
  readErr : Option String
  waitErr : Option String
deriving DecidableEq, Repr

/-- How `Migrate` ends: it returns, with the receiver and the values sent on
the channel `pipe`, or `log.Fatal` ends the process, or it panics. -/
inductive MigrateOutcome where
  | returned (driver : Driver) (pipe : List String)
  | fatal (msg : String)
  | panicked
deriving DecidableEq, Repr

/-- `func (driver *Driver) Migrate(f file.File, pipe chan interface{})` -/
def Driver.Migrate (driver : Driver) (f : File) (run : ScriptRun) : MigrateOutcome :=
  match run.pipeErr with
  | some err => MigrateOutcome.fatal err
  | none =>
    match run.startErr with
    | some err => MigrateOutcome.fatal err
    | none =>
      let outString := run.output
      match run.readErr with
      | some err => MigrateOutcome.fatal err
      | none =>
        if f.Direction = Direction.Up then
          MigrateOutcome.returned (Driver.addVersion driver f.Version) [outString]
        else
          match Driver.removeVersion driver f.Version with
          | Outcome.returned driver => MigrateOutcome.returned driver [outString]
          | Outcome.panicked => MigrateOutcome.panicked

/-- The text of a journal file with one line per version of `vs`, each the
decimal numeral and a newline. -/
def journalText (vs : Versions) : List Char :=
  (vs.map (fun v => formatUint v ++ ['\n'])).flatten

/-- A run of a script that exits with a failure: `cmd.Wait` returns an error. -/
def failedRun : ScriptRun :=
  { pipeErr := none, startErr := none, output := "", readErr := none,
    waitErr := some "exit status 1" }

/-- A driver as `driver.RegisterDriver` gets it. -/
def emptyDriver : Driver := { versionFile := "", versions := [] }

/-- A file system with one file. -/
def oneFile (path content : String) : String → Option String :=
  fun p => if p = path then some content else none

/-! ## Notions used to state the properties of the discovery -/

/-- The `tmpFile` the first loop builds for a directory entry whose name parses. -/
def ReadMigrationFiles.entry (filenameRegex : Regexp) (file : String) : Option tmpFile :=
  match parseFilenameSchema file filenameRegex with
  | Except.ok (version, name, d) =>
    some { version := version, name := name, filename := file, d := d }
  | Except.error _ => none

/-- The entries of a listing whose names parse, in the order of the listing. -/
def ReadMigrationFiles.parsed (filenameRegex : Regexp) (ioFiles : List String) : List tmpFile :=
  ioFiles.filterMap (ReadMigrationFiles.entry filenameRegex)

/-- Two parsed entries for the same version and direction. -/
def sameKey (a b : tmpFile) : Prop := a.version = b.version ∧ a.d = b.d

instance sameKey.decidable (a b : tmpFile) : Decidable (sameKey a b) :=
  inferInstanceAs (Decidable (a.version = b.version ∧ a.d = b.d))

/-- A listing holds two entries, at different places, whose names parse to the
same version and direction. -/
def HasDuplicate (filenameRegex : Regexp) (ioFiles : List String) : Prop :=
  ∃ a b v na nb d, [a, b].Sublist ioFiles ∧
    parseFilenameSchema a filenameRegex = Except.ok (v, na, d) ∧
    parseFilenameSchema b filenameRegex = Except.ok (v, nb, d)

/-- The files for which the second loop builds a unit: the first file of each
version not yet in `parsedVersions`. -/
def ReadMigrationFiles.firsts : List Version → List tmpFile → List tmpFile
  | _, [] => []
  | parsedVersions, file :: rest =>
    if file.version ∈ parsedVersions then ReadMigrationFiles.firsts parsedVersions rest
    else file :: ReadMigrationFiles.firsts (parsedVersions ++ [file.version]) rest

/-- The listing has a file of version `v` and direction `d`, and `f` is the
`File` of that entry: its own file name and label, the version `v`, the
direction `d`, the path of the directory and no content. -/
def IsFileOf (path : String) (filenameRegex : Regexp) (ioFiles : List String)
    (v : Version) (d : Direction) (f : File) : Prop :=
  ∃ name ∈ ioFiles, ∃ label,
    parseFilenameSchema name filenameRegex = Except.ok (v, label, d) ∧
    f = { Path := path, FileName := name, Version := v, Name := label, Content := [],
          Direction := d }

/-- The listing has a file of version `v`. -/
def HasVersion (filenameRegex : Regexp) (ioFiles : List String) (v : Version) : Prop :=
  ∃ name ∈ ioFiles, ∃ label d, parseFilenameSchema name filenameRegex = Except.ok (v, label, d)

/-! ## Fixtures -/

/-- A listing with a name that matches the pattern and whose digits do not fit
64 bits. -/
def listingOverflow : List String := ["1_a.up.sh", "99999999999999999999999_x.up.sh"]

/-- The listing of the example of the pairing: the two files of version 5. -/
def listing5 : List String := ["5_init.down.ext", "5_init.up.ext"]

/-- A listing with an up file, a down file and a name outside the pattern. -/
def listingMixed : List String := ["1_a.up.sh", "2_b.down.sh", "README.md"]


/-- A file of the fixture sets. -/
def mkFile (v : Version) (d : Direction) : File :=
  { Path := "dir", FileName := "", Version := v, Name := "m", Content := [], Direction := d }

/-- A unit with both sides. -/
def unitBoth (v : Version) : MigrationFile :=
  { Version := v, UpFile := some (mkFile v Direction.Up), DownFile := some (mkFile v Direction.Down) }

/-- A unit with an up file only. -/
def unitUp (v : Version) : MigrationFile :=
  { Version := v, UpFile := some (mkFile v Direction.Up), DownFile := none }

/-- The set of the units 1, 2, 3 with both sides. -/
def set123 : MigrationFiles := [unitBoth 1, unitBoth 2, unitBoth 3]

/-! ## Facts about the sort -/

theorem sortInsert_perm {α : Type} (less : α → α → Bool) (x : α) (l : List α) :
    (sortInsert less x l).Perm (x :: l) := by
  induction l with
  | nil => exact List.Perm.refl _
  | cons y ys ih =>
    unfold sortInsert
    by_cases h : less x y = true
    · rw [if_pos h]
      exact (List.Perm.cons y ih).trans (List.Perm.swap x y ys)
    · rw [if_neg h]

theorem sortLoop_perm {α : Type} (less : α → α → Bool) (data front : List α) :
    (sortLoop less data front).Perm (data ++ front) := by
  induction data generalizing front with
  | nil => exact List.Perm.refl _
  | cons x rest ih =>
    unfold sortLoop
    refine (ih _).trans ?_
    refine (List.Perm.append_left rest (sortInsert_perm less x front)).trans ?_
    exact List.perm_middle

theorem sortSort_perm {α : Type} (less : α → α → Bool) (data : List α) :
    (sortSort less data).Perm data := by
  unfold sortSort
  refine (List.reverse_perm _).trans ?_
  simpa using sortLoop_perm less data []

theorem sortInsert_pairwise {α : Type} (less : α → α → Bool) (r : α → α → Prop)
    (htrans : ∀ a b c, r a b → r b c → r a c)
    (h1 : ∀ a b, less a b = true → r a b)
    (h2 : ∀ a b, less a b = false → r b a)
    (x : α) (l : List α) (hl : l.Pairwise (fun a b => r b a)) :
    (sortInsert less x l).Pairwise (fun a b => r b a) := by
  induction l with
  | nil => simp [sortInsert]
  | cons y ys ih =>
    unfold sortInsert
    have hy := List.pairwise_cons.mp hl
    by_cases h : less x y = true
    · rw [if_pos h]
      refine List.pairwise_cons.mpr ⟨?_, ih hy.2⟩
      intro z hz
      rcases List.mem_cons.mp ((sortInsert_perm less x ys).subset hz) with hzx | hzy
      · subst hzx
        exact h1 _ _ h
      · exact hy.1 z hzy
    · rw [if_neg h]
      have hyx : r y x := h2 x y (by simpa using h)
      refine List.pairwise_cons.mpr ⟨?_, hl⟩
      intro z hz
      rcases List.mem_cons.mp hz with hzy | hzy
      · subst hzy
        exact hyx
      · exact htrans _ _ _ (hy.1 z hzy) hyx

theorem sortLoop_pairwise {α : Type} (less : α → α → Bool) (r : α → α → Prop)
    (htrans : ∀ a b c, r a b → r b c → r a c)
    (h1 : ∀ a b, less a b = true → r a b)
    (h2 : ∀ a b, less a b = false → r b a)
    (data front : List α) (hl : front.Pairwise (fun a b => r b a)) :
    (sortLoop less data front).Pairwise (fun a b => r b a) := by
  induction data generalizing front with
  | nil => exact hl
  | cons x rest ih =>
    unfold sortLoop
    exact ih _ (sortInsert_pairwise less r htrans h1 h2 x front hl)

theorem sortSort_pairwise {α : Type} (less : α → α → Bool) (r : α → α → Prop)
    (htrans : ∀ a b c, r a b → r b c → r a c)
    (h1 : ∀ a b, less a b = true → r a b)
    (h2 : ∀ a b, less a b = false → r b a)
    (data : List α) : (sortSort less data).Pairwise r := by
  unfold sortSort
  rw [List.pairwise_reverse]
  exact sortLoop_pairwise less r htrans h1 h2 data [] List.Pairwise.nil

/-- The receiver after `sort.Sort(mf)` is ascending by version. -/
theorem sortAsc_pairwise (mf : MigrationFiles) :
    (sortSort MigrationFiles.Less mf).Pairwise (fun a b => a.Version ≤ b.Version) := by
  apply sortSort_pairwise MigrationFiles.Less (fun a b => a.Version ≤ b.Version)
  · intro a b c hab hbc
    exact Nat.le_trans hab hbc
  · intro a b h
    simp only [MigrationFiles.Less, decide_eq_true_eq] at h
    exact Nat.le_of_lt h
  · intro a b h
    simp only [MigrationFiles.Less, decide_eq_false_iff_not] at h
    exact Nat.le_of_not_lt h

/-- The receiver after `sort.Sort(sort.Reverse(mf))` is descending by version. -/
theorem sortDesc_pairwise (mf : MigrationFiles) :
    (sortSort MigrationFiles.ReverseLess mf).Pairwise (fun a b => b.Version ≤ a.Version) := by
  apply sortSort_pairwise MigrationFiles.ReverseLess (fun a b => b.Version ≤ a.Version)
  · intro a b c hab hbc
    exact Nat.le_trans hbc hab
  · intro a b h
    simp only [MigrationFiles.ReverseLess, MigrationFiles.Less, decide_eq_true_eq] at h
    exact Nat.le_of_lt h
  · intro a b h
    simp only [MigrationFiles.ReverseLess, MigrationFiles.Less, decide_eq_false_iff_not] at h
    exact Nat.le_of_not_lt h

/-- With pairwise distinct keys a list that is sorted weakly is sorted strictly. -/
theorem pairwise_lt_of_le_of_nodup {α : Type} (key : α → Nat) (l : List α)
    (hs : l.Pairwise (fun a b => key a ≤ key b)) (hd : (l.map key).Nodup) :
    l.Pairwise (fun a b => key a < key b) := by
  have hne : l.Pairwise (fun a b => key a ≠ key b) := by
    have := hd
    unfold List.Nodup at this
    exact List.pairwise_map.mp this
  exact (hs.and hne).imp (fun h => Nat.lt_of_le_of_ne h.1 h.2)

/-- Two lists sorted strictly by the same key and with the same members are equal:
whatever algorithm `sort.Sort` runs, on pairwise distinct versions its result
is the one of `sortSort`. -/
theorem eq_of_perm_of_pairwise_lt {α : Type} (key : α → Nat) (l₁ l₂ : List α)
    (hp : l₁.Perm l₂)
    (h₁ : l₁.Pairwise (fun a b => key a < key b))
    (h₂ : l₂.Pairwise (fun a b => key a < key b)) : l₁ = l₂ := by
  induction l₁ generalizing l₂ with
  | nil => exact (List.nil_perm.mp hp).symm ▸ rfl
  | cons a l ih =>
    cases l₂ with
    | nil => exact absurd hp.symm (by simp)
    | cons b m =>
      have ha := List.pairwise_cons.mp h₁
      have hb := List.pairwise_cons.mp h₂
      have hab : a = b := by
        have h1 : a ∈ b :: m := hp.subset (List.mem_cons_self a l)
        have h2 : b ∈ a :: l := hp.symm.subset (List.mem_cons_self b m)
        rcases List.mem_cons.mp h1 with h | h
        · exact h
        · rcases List.mem_cons.mp h2 with h' | h'
          · exact h'.symm
          · have := ha.1 b h'
            have := hb.1 a h
            omega
      subst hab
      rw [ih m (List.Perm.cons_inv hp) ha.2 hb.2]

theorem Versions_contains_iff (vs : Versions) (v : Version) :
    Versions.Contains vs v = true ↔ v ∈ vs := by
  induction vs with
  | nil => simp [Versions.Contains]
  | cons w rest ih =>
    unfold Versions.Contains
    by_cases h : w = v
    · simp [h]
    · have h' : ¬ v = w := fun e => h e.symm
      simp [h, h', ih]

/-! ## Pending and Applied -/

/-- The side of a unit that `Pending` emits. -/
theorem Pending_loop_eq (vs : Versions) (l : List MigrationFile) (files : Files) :
    Pending.loop vs l files =
      files ++ l.filterMap (fun u => if Versions.Contains vs u.Version = true then none else u.UpFile) := by
  induction l generalizing files with
  | nil => simp [Pending.loop]
  | cons u rest ih =>
    unfold Pending.loop
    cases hc : Versions.Contains vs u.Version <;> cases hu : u.UpFile <;>
      simp [ih, List.filterMap_cons, hc, hu]

/-- The side of a unit that `Applied` emits. -/
theorem Applied_loop_eq (vs : Versions) (l : List MigrationFile) (files : Files) :
    Applied.loop vs l files =
      files ++ l.filterMap (fun u => if Versions.Contains vs u.Version = true then u.DownFile else none) := by
  induction l generalizing files with
  | nil => simp [Applied.loop]
  | cons u rest ih =>
    unfold Applied.loop
    cases hc : Versions.Contains vs u.Version <;> cases hu : u.DownFile <;>
      simp [ih, List.filterMap_cons, hc, hu]

theorem filter_map_eq_filterMap {α β : Type} (g : α → Option β) (l : List α) :
    (l.filter (fun u => (g u).isSome)).map g = (l.filterMap g).map some := by
  induction l with
  | nil => rfl
  | cons u rest ih =>
    cases hg : g u <;> simp [List.filter_cons, List.filterMap_cons, hg, ih]

/-- The units of a sorted receiver that qualify for a request, with the files
the loop emits for them. -/
theorem emitted_units {key : MigrationFile → Nat} (r : Nat → Nat → Prop)
    (g side : MigrationFile → Option File) (q : MigrationFile → Prop)
    (mf sorted : MigrationFiles)
    (hperm : sorted.Perm mf)
    (hsorted : sorted.Pairwise (fun a b => r (key a) (key b)))
    (hg : ∀ u, (g u).isSome = true ↔ (q u ∧ side u ≠ none))
    (hside : ∀ u, (g u).isSome = true → g u = side u) :
    ∃ us : List MigrationFile,
      us.map side = (sorted.filterMap g).map some ∧
      us.Pairwise (fun a b => r (key a) (key b)) ∧
      ∀ u, u ∈ us ↔ (u ∈ mf ∧ q u ∧ side u ≠ none) := by
  refine ⟨sorted.filter (fun u => (g u).isSome), ?_, ?_, ?_⟩
  · rw [← filter_map_eq_filterMap]
    apply List.map_congr_left
    intro u hu
    exact (hside u (List.mem_filter.mp hu).2).symm
  · exact hsorted.sublist (List.filter_sublist _)
  · intro u
    rw [List.mem_filter, hg u, hperm.mem_iff]

/-- C1: for a set with pairwise distinct versions, `Pending` returns a nil error
and exactly the up files of the units whose version is not in the applied list
and whose up file is present, one per unit, in strictly ascending order of the
units' versions. -/
theorem Pending_spec (mf : MigrationFiles) (vs : Versions)
    (hd : (mf.map (fun u => u.Version)).Nodup) :
    (Pending mf vs).2.2 = none ∧
    ∃ us : List MigrationFile,
      us.map (fun u => u.UpFile) = (Pending mf vs).2.1.map some ∧
      us.Pairwise (fun a b => a.Version < b.Version) ∧
      ∀ u, u ∈ us ↔ (u ∈ mf ∧ u.Version ∉ vs ∧ u.UpFile ≠ none) := by
  refine ⟨rfl, ?_⟩
  have hperm := sortSort_perm MigrationFiles.Less mf
  have hlt := pairwise_lt_of_le_of_nodup (fun u : MigrationFile => u.Version) _
    (sortAsc_pairwise mf) ((hperm.map _).nodup_iff.mpr hd)
  have h := emitted_units (fun a b => a < b)
    (fun u => if Versions.Contains vs u.Version = true then none else u.UpFile)
    (fun u => u.UpFile) (fun u => u.Version ∉ vs) mf _ hperm hlt
    (by
      intro u
      simp only [← Versions_contains_iff]
      cases hc : Versions.Contains vs u.Version <;> cases hu : u.UpFile <;> simp [hc, hu])
    (by
      intro u
      cases hc : Versions.Contains vs u.Version <;> simp [hc])
  simpa [Pending, Pending_loop_eq] using h

/-- The instance of C1 the specification gives: units 1, 2, 3 and applied 1. -/
theorem Pending_spec_witness :
    (set123.map (fun u => u.Version)).Nodup ∧
    (Pending set123 [1]).2 = ([mkFile 2 Direction.Up, mkFile 3 Direction.Up], none) ∧
    ((Pending set123 [1]).2.2 = none ∧
      ∃ us : List MigrationFile,
        us.map (fun u => u.UpFile) = (Pending set123 [1]).2.1.map some ∧
        us.Pairwise (fun a b => a.Version < b.Version) ∧
        ∀ u, u ∈ us ↔ (u ∈ set123 ∧ u.Version ∉ [1] ∧ u.UpFile ≠ none)) :=
  ⟨by decide, by decide, Pending_spec set123 [1] (by decide)⟩

/-- C2: for a set with pairwise distinct versions, `Applied` returns a nil error
and exactly the down files of the units whose version is in the applied list
and whose down file is present, one per unit, in strictly descending order of
the units' versions; a unit without a down file contributes nothing. -/
theorem Applied_spec (mf : MigrationFiles) (vs : Versions)
    (hd : (mf.map (fun u => u.Version)).Nodup) :
    (Applied mf vs).2.2 = none ∧
    (∃ us : List MigrationFile,
      us.map (fun u => u.DownFile) = (Applied mf vs).2.1.map some ∧
      us.Pairwise (fun a b => b.Version < a.Version) ∧
      ∀ u, u ∈ us ↔ (u ∈ mf ∧ u.Version ∈ vs ∧ u.DownFile ≠ none)) ∧
    ((∀ u ∈ mf, u.DownFile = none) → (Applied mf vs).2.1 = []) := by
  refine ⟨rfl, ?_, ?_⟩
  · have hperm := sortSort_perm MigrationFiles.ReverseLess mf
    have hd2 : ((sortSort MigrationFiles.ReverseLess mf).map (fun u => u.Version)).Nodup :=
      (hperm.map _).nodup_iff.mpr hd
    have hlt : (sortSort MigrationFiles.ReverseLess mf).Pairwise
        (fun a b => b.Version < a.Version) := by
      have hne : (sortSort MigrationFiles.ReverseLess mf).Pairwise
          (fun a b => a.Version ≠ b.Version) := List.pairwise_map.mp hd2
      exact ((sortDesc_pairwise mf).and hne).imp
        (fun h => Nat.lt_of_le_of_ne h.1 (fun e => h.2 e.symm))
    have h := emitted_units (fun a b => b < a)
      (fun u => if Versions.Contains vs u.Version = true then u.DownFile else none)
      (fun u => u.DownFile) (fun u => u.Version ∈ vs) mf _ hperm hlt
      (by
        intro u
        simp only [← Versions_contains_iff]
        cases hc : Versions.Contains vs u.Version <;> cases hu : u.DownFile <;> simp [hc, hu])
      (by
        intro u
        cases hc : Versions.Contains vs u.Version <;> simp [hc])
    simpa [Applied, Applied_loop_eq] using h
  · intro hnone
    have hperm := sortSort_perm MigrationFiles.ReverseLess mf
    simp only [Applied, Applied_loop_eq, List.nil_append]
    rw [List.filterMap_eq_nil_iff]
    intro u hu
    rw [hnone u (hperm.mem_iff.mp hu)]
    simp

/-- The instance of C2 the specification gives: units 1, 2, 3, all applied. -/
theorem Applied_spec_witness :
    (set123.map (fun u => u.Version)).Nodup ∧
    (Applied set123 [1, 2, 3]).2 =
      ([mkFile 3 Direction.Down, mkFile 2 Direction.Down, mkFile 1 Direction.Down], none) ∧
    ((Applied set123 [1, 2, 3]).2.2 = none ∧
      (∃ us : List MigrationFile,
        us.map (fun u => u.DownFile) = (Applied set123 [1, 2, 3]).2.1.map some ∧
        us.Pairwise (fun a b => b.Version < a.Version) ∧
        ∀ u, u ∈ us ↔ (u ∈ set123 ∧ u.Version ∈ [1, 2, 3] ∧ u.DownFile ≠ none)) ∧
      ((∀ u ∈ set123, u.DownFile = none) → (Applied set123 [1, 2, 3]).2.1 = [])) ∧
    (Applied [unitUp 1, unitBoth 2] [1, 2]).2.1 = [mkFile 2 Direction.Down] ∧
    (Applied [unitUp 1] [1]).2.1 = [] :=
  ⟨by decide, by decide, Applied_spec set123 [1, 2, 3] (by decide), by decide,
    (Applied_spec [unitUp 1] [1] (by decide)).2.2 (by decide)⟩

/-! ## Relative -/

theorem negInt_eq_neg (n : Int) (hlo : minInt < n) (hhi : n ≤ maxInt) : negInt n = -n := by
  unfold negInt wrapInt
  unfold minInt at hlo
  unfold maxInt at hhi
  omega

theorem negInt_minInt : negInt minInt = minInt := by decide

theorem Relative_finish_eq (n : Int) (files : Files) (err : Option Error) (hn : 0 ≤ n) :
    Relative.finish n files err = Outcome.returned (files.take (min n.toNat files.length), err) := by
  unfold Relative.finish sliceTo
  by_cases h : n > (files.length : Int)
  · have hmin : min n.toNat files.length = files.length := by omega
    simp [h, hmin]
  · have hle : n ≤ (files.length : Int) := by omega
    have hmin : min n.toNat files.length = n.toNat := by omega
    simp [h, hn, hle, hmin]

theorem Relative_finish_neg (n : Int) (files : Files) (err : Option Error) (hn : n < 0) :
    Relative.finish n files err = Outcome.panicked := by
  unfold Relative.finish sliceTo
  have h1 : ¬ n > (files.length : Int) := by omega
  have h2 : ¬ (0 ≤ n ∧ n ≤ (files.length : Int)) := by omega
  simp only [h1, if_false, h2]

/-- What `Relative` returns for every `relativeN` other than the least `int`:
the first `min |n| len` files of `Pending` (`n > 0`) or of `Applied` (`n < 0`),
nothing for `n = 0`, with a nil error and without a panic. -/
theorem Relative_eq_take (mf : MigrationFiles) (vs : Versions) (n : Int)
    (hlo : minInt < n) (hhi : n ≤ maxInt) :
    (0 < n → (Relative mf n vs).2 = Outcome.returned
      ((Pending mf vs).2.1.take (min n.natAbs (Pending mf vs).2.1.length), none)) ∧
    (n < 0 → (Relative mf n vs).2 = Outcome.returned
      ((Applied mf vs).2.1.take (min n.natAbs (Applied mf vs).2.1.length), none)) ∧
    (n = 0 → (Relative mf n vs).2 = Outcome.returned ([], none)) := by
  refine ⟨?_, ?_, ?_⟩
  · intro hn
    have hnat : n.toNat = n.natAbs := by omega
    simp only [Relative, gt_iff_lt, hn, if_true]
    rw [Relative_finish_eq _ _ _ (Int.le_of_lt hn), hnat]
    rfl
  · intro hn
    have h1 : ¬ 0 < n := by omega
    have hnat : (-n).toNat = n.natAbs := by omega
    simp only [Relative, gt_iff_lt, h1, if_false, hn, if_true]
    rw [negInt_eq_neg n hlo hhi, Relative_finish_eq _ _ _ (by omega), hnat]
    rfl
  · intro hn
    subst hn
    simp [Relative]

/-- C3: at the least value of `int` the negation in `Relative` wraps, the slice
bound stays negative and the call panics, where the claim gives the first
`min |n| len` files of `Applied`: here the three down files of the units 3, 2, 1. -/
theorem Relative_minInt_set123 :
    (Relative set123 minInt [1, 2, 3]).2 = Outcome.panicked ∧
    (Applied set123 [1, 2, 3]).2.1.take (min minInt.natAbs (Applied set123 [1, 2, 3]).2.1.length) =
      [mkFile 3 Direction.Down, mkFile 2 Direction.Down, mkFile 1 Direction.Down] := by
  constructor <;> decide

/-- C4: for every set and applied list, `Relative` at the least value of `int`
uses the slice bound `-relativeN`, which is that least value again and not in
`[0, len(files)]`, and the slicing panics. -/
theorem Relative_minInt_panics (mf : MigrationFiles) (vs : Versions) :
    negInt minInt < 0 ∧
    ¬ (negInt minInt > ((Applied mf vs).2.1.length : Int)) ∧
    (Relative mf minInt vs).2 = Outcome.panicked := by
  refine ⟨by decide, ?_, ?_⟩
  · rw [negInt_minInt]
    unfold minInt
    omega
  · have h1 : ¬ minInt > 0 := by decide
    have h2 : minInt < 0 := by decide
    simp only [Relative, h1, if_false, h2, if_true]
    exact Relative_finish_neg _ _ _ (by decide)

/-! ## The receiver after a call -/

/-- C5, as the claim states it, fails: `Applied` on the ascending set of the
units 1, 2 leaves the receiver in the order 2, 1, and `Pending` on the set
in the order 2, 1 leaves it in the order 1, 2. -/
theorem receiver_reordered :
    ([unitBoth 1, unitBoth 2] : MigrationFiles).Pairwise (fun a b => a.Version < b.Version) ∧
    (Applied [unitBoth 1, unitBoth 2] []).1 = [unitBoth 2, unitBoth 1] ∧
    (Applied [unitBoth 1, unitBoth 2] []).1 ≠ [unitBoth 1, unitBoth 2] ∧
    ¬ (Applied [unitBoth 1, unitBoth 2] []).1.Pairwise (fun a b => a.Version ≤ b.Version) ∧
    (Relative [unitBoth 1, unitBoth 2] (-1) []).1 ≠ [unitBoth 1, unitBoth 2] ∧
    (Pending [unitBoth 2, unitBoth 1] []).1 ≠ [unitBoth 2, unitBoth 1] := by
  refine ⟨by decide, by decide, by decide, by decide, by decide, by decide⟩

/-- C5, amended: a call reorders the receiver and changes nothing else.  The
receiver after the call is a permutation of the receiver before it, ascending
by version after `Pending`, descending after `Applied`; `Relative` leaves what
`Pending` leaves for `n > 0`, what `Applied` leaves for `n < 0`, and the
receiver as it was for `n = 0`.  A set that is strictly ascending is left as
it was by `Pending` and reversed by `Applied`. -/
theorem receiver_after_call (mf : MigrationFiles) (vs : Versions) :
    ((Pending mf vs).1.Perm mf ∧
      (Pending mf vs).1.Pairwise (fun a b => a.Version ≤ b.Version)) ∧
    ((Applied mf vs).1.Perm mf ∧
      (Applied mf vs).1.Pairwise (fun a b => b.Version ≤ a.Version)) ∧
    (∀ n : Int, (Relative mf n vs).1 =
      if 0 < n then (Pending mf vs).1 else if n < 0 then (Applied mf vs).1 else mf) ∧
    (mf.Pairwise (fun a b => a.Version < b.Version) →
      (Pending mf vs).1 = mf ∧ (Applied mf vs).1 = mf.reverse) := by
  refine ⟨⟨sortSort_perm _ mf, sortAsc_pairwise mf⟩,
    ⟨sortSort_perm _ mf, sortDesc_pairwise mf⟩, ?_, ?_⟩
  · intro n
    by_cases h1 : 0 < n
    · simp [Relative, h1]
    · by_cases h2 : n < 0
      · simp [Relative, h1, h2]
      · simp [Relative, h1, h2]
  · intro hs
    have hnd : (mf.map (fun u : MigrationFile => u.Version)).Nodup := by
      unfold List.Nodup
      exact List.pairwise_map.mpr (hs.imp (fun h => Nat.ne_of_lt h))
    constructor
    · apply eq_of_perm_of_pairwise_lt (fun u : MigrationFile => u.Version) _ _
        (sortSort_perm MigrationFiles.Less mf) _ hs
      exact pairwise_lt_of_le_of_nodup (fun u : MigrationFile => u.Version) _
        (sortAsc_pairwise mf) (((sortSort_perm MigrationFiles.Less mf).map _).nodup_iff.mpr hnd)
    · have hp : (sortSort MigrationFiles.ReverseLess mf).reverse.Perm mf :=
        (List.reverse_perm _).trans (sortSort_perm MigrationFiles.ReverseLess mf)
      have hasc : (sortSort MigrationFiles.ReverseLess mf).reverse.Pairwise
          (fun a b => a.Version ≤ b.Version) :=
        List.pairwise_reverse.mpr (sortDesc_pairwise mf)
      have heq := eq_of_perm_of_pairwise_lt (fun u : MigrationFile => u.Version) _ _ hp
        (pairwise_lt_of_le_of_nodup (fun u : MigrationFile => u.Version) _ hasc
          ((hp.map _).nodup_iff.mpr hnd)) hs
      show sortSort MigrationFiles.ReverseLess mf = mf.reverse
      exact List.reverse_eq_iff.mp heq

/-- An instance of the amended C5 on the units 1, 2, 3. -/
theorem receiver_after_call_witness :
    set123.Pairwise (fun a b => a.Version < b.Version) ∧
    (Pending set123 [1]).1 = set123 ∧ (Applied set123 [1]).1 = set123.reverse :=
  ⟨by decide, (receiver_after_call set123 [1]).2.2.2 (by decide)⟩


/-! ## The first loop of ReadMigrationFiles -/

theorem entry_eq_some (re : Regexp) (file : String) (t : tmpFile) :
    ReadMigrationFiles.entry re file = some t ↔
      (parseFilenameSchema file re = Except.ok (t.version, t.name, t.d) ∧ t.filename = file) := by
  unfold ReadMigrationFiles.entry
  cases h : parseFilenameSchema file re with
  | error e => simp
  | ok r =>
    obtain ⟨v, n, d⟩ := r
    cases t with
    | mk tv tn tf td =>
      simp only [Option.some.injEq, tmpFile.mk.injEq, Except.ok.injEq, Prod.mk.injEq]
      constructor
      · rintro ⟨h1, h2, h3, h4⟩
        exact ⟨⟨h1, h2, h4⟩, h3.symm⟩
      · rintro ⟨⟨h1, h2, h4⟩, h3⟩
        exact ⟨h1, h2, h3.symm, h4⟩

theorem entry_eq_none (re : Regexp) (file : String) :
    ReadMigrationFiles.entry re file = none ↔ ∃ e, parseFilenameSchema file re = Except.error e := by
  unfold ReadMigrationFiles.entry
  cases h : parseFilenameSchema file re with
  | error e => simp
  | ok r => simp

theorem mem_parsed (re : Regexp) (l : List String) (t : tmpFile) :
    t ∈ ReadMigrationFiles.parsed re l ↔
      (t.filename ∈ l ∧ parseFilenameSchema t.filename re = Except.ok (t.version, t.name, t.d)) := by
  unfold ReadMigrationFiles.parsed
  rw [List.mem_filterMap]
  constructor
  · rintro ⟨a, ha, hat⟩
    obtain ⟨h1, h2⟩ := (entry_eq_some re a t).mp hat
    subst h2
    exact ⟨ha, h1⟩
  · rintro ⟨h1, h2⟩
    exact ⟨t.filename, h1, (entry_eq_some re _ t).mpr ⟨h2, rfl⟩⟩

theorem scan_cons_none (re : Regexp) (file : String) (rest : List String)
    (tmp : List tmpFile) (m : TmpFileMap) (h : ReadMigrationFiles.entry re file = none) :
    ReadMigrationFiles.scan re (file :: rest) tmp m = ReadMigrationFiles.scan re rest tmp m := by
  obtain ⟨e, he⟩ := (entry_eq_none re file).mp h
  simp only [ReadMigrationFiles.scan, he]

theorem scan_cons_fresh (re : Regexp) (file : String) (rest : List String)
    (tmp : List tmpFile) (m : TmpFileMap) (t : tmpFile)
    (h : ReadMigrationFiles.entry re file = some t) (hm : m t.version t.d = none) :
    ReadMigrationFiles.scan re (file :: rest) tmp m =
      ReadMigrationFiles.scan re rest (tmp ++ [t])
        (fun v e => if v = t.version ∧ e = t.d then some t else m v e) := by
  obtain ⟨hp, hf⟩ := (entry_eq_some re file t).mp h
  cases t with
  | mk tv tn tf td =>
    simp only at hp hf hm
    subst hf
    simp only [ReadMigrationFiles.scan, hp, hm]

theorem scan_cons_existing (re : Regexp) (file : String) (rest : List String)
    (tmp : List tmpFile) (m : TmpFileMap) (t existing : tmpFile)
    (h : ReadMigrationFiles.entry re file = some t) (hm : m t.version t.d = some existing) :
    ReadMigrationFiles.scan re (file :: rest) tmp m =
      Except.error (Error.duplicateVersion t.version existing.filename t.filename) := by
  obtain ⟨hp, hf⟩ := (entry_eq_some re file t).mp h
  cases t with
  | mk tv tn tf td =>
    simp only at hp hf hm
    subst hf
    simp only [ReadMigrationFiles.scan, hp, hm]

/-- The first loop, started on the entries of the front `pre` of the listing:
it ends with all parsed entries, no two of which share version and direction,
or with the duplicate error for two entries that do. -/
theorem scan_spec (re : Regexp) (rest pre : List String) (m : TmpFileMap)
    (hm : ∀ v d, m v d =
      (ReadMigrationFiles.parsed re pre).find? (fun t => decide (t.version = v ∧ t.d = d)))
    (hk : (ReadMigrationFiles.parsed re pre).Pairwise (fun a b => ¬ sameKey a b)) :
    (ReadMigrationFiles.scan re rest (ReadMigrationFiles.parsed re pre) m =
        Except.ok (ReadMigrationFiles.parsed re (pre ++ rest)) ∧
      (ReadMigrationFiles.parsed re (pre ++ rest)).Pairwise (fun a b => ¬ sameKey a b)) ∨
    (∃ ta tb, ReadMigrationFiles.scan re rest (ReadMigrationFiles.parsed re pre) m =
        Except.error (Error.duplicateVersion ta.version ta.filename tb.filename) ∧
      sameKey ta tb ∧ [ta, tb].Sublist (ReadMigrationFiles.parsed re (pre ++ rest))) := by
  induction rest generalizing pre m with
  | nil =>
    left
    simp only [List.append_nil, ReadMigrationFiles.scan]
    exact ⟨trivial, hk⟩
  | cons file rest ih =>
    have happ : pre ++ file :: rest = (pre ++ [file]) ++ rest := by simp
    cases he : ReadMigrationFiles.entry re file with
    | none =>
      have hpre : ReadMigrationFiles.parsed re (pre ++ [file]) = ReadMigrationFiles.parsed re pre := by
        simp [ReadMigrationFiles.parsed, List.filterMap_append, he]
      rw [scan_cons_none re file rest _ m he, happ]
      have := ih (pre ++ [file]) m (by rw [hpre]; exact hm) (by rw [hpre]; exact hk)
      rw [hpre] at this
      exact this
    | some t =>
      have hpre : ReadMigrationFiles.parsed re (pre ++ [file]) =
          ReadMigrationFiles.parsed re pre ++ [t] := by
        simp [ReadMigrationFiles.parsed, List.filterMap_append, he]
      cases hl : m t.version t.d with
      | none =>
        rw [scan_cons_fresh re file rest _ m t he hl, happ]
        have hnone := hl
        rw [hm, List.find?_eq_none] at hnone
        have := ih (pre ++ [file])
          (fun v e => if v = t.version ∧ e = t.d then some t else m v e)
          (by
            intro v d
            rw [hpre, List.find?_append]
            show (if v = t.version ∧ d = t.d then some t else m v d) = _
            by_cases hvd : v = t.version ∧ d = t.d
            · obtain ⟨hv, hd⟩ := hvd
              subst hv hd
              rw [← hm, hl]
              simp
            · have hvd2 : ¬ (t.version = v ∧ t.d = d) := fun h => hvd ⟨h.1.symm, h.2.symm⟩
              rw [if_neg hvd, hm]
              simp [hvd2])
          (by
            rw [hpre, List.pairwise_append]
            refine ⟨hk, List.pairwise_singleton _ _, ?_⟩
            intro a ha b hb
            rw [List.mem_singleton] at hb
            subst hb
            have := hnone a ha
            simpa [sameKey] using this)
        rw [hpre] at this
        exact this
      | some existing =>
        right
        refine ⟨existing, t, ?_, ?_, ?_⟩
        · have hfound := hl
          rw [hm] at hfound
          have hkey := List.find?_some hfound
          simp only [decide_eq_true_eq] at hkey
          rw [scan_cons_existing re file rest _ m t existing he hl, hkey.1]
        · have hfound := hl
          rw [hm] at hfound
          have hkey := List.find?_some hfound
          simpa [sameKey] using hkey
        · have hfound := hl
          rw [hm] at hfound
          have hmem := List.mem_of_find?_eq_some hfound
          have h1 : [existing].Sublist (ReadMigrationFiles.parsed re pre) :=
            List.singleton_sublist.mpr hmem
          have h2 : [t].Sublist (t :: ReadMigrationFiles.parsed re rest) :=
            List.singleton_sublist.mpr (List.mem_cons_self _ _)
          have h3 := h1.append h2
          have hall : ReadMigrationFiles.parsed re (pre ++ file :: rest) =
              ReadMigrationFiles.parsed re pre ++ t :: ReadMigrationFiles.parsed re rest := by
            simp [ReadMigrationFiles.parsed, List.filterMap_append, List.filterMap_cons, he]
          rw [hall]
          simpa using h3

theorem pair_sublist_of_filterMap {α β : Type} (f : α → Option β) (l : List α) (x y : β)
    (h : [x, y].Sublist (l.filterMap f)) :
    ∃ a b, [a, b].Sublist l ∧ f a = some x ∧ f b = some y := by
  induction l with
  | nil => simp at h
  | cons c l ih =>
    cases hc : f c with
    | none =>
      rw [List.filterMap_cons_none hc] at h
      obtain ⟨a, b, hab, ha, hb⟩ := ih h
      exact ⟨a, b, hab.cons c, ha, hb⟩
    | some z =>
      rw [List.filterMap_cons_some hc] at h
      cases h with
      | cons _ h' =>
        obtain ⟨a, b, hab, ha, hb⟩ := ih h'
        exact ⟨a, b, hab.cons c, ha, hb⟩
      | cons₂ _ h' =>
        have hy : y ∈ l.filterMap f := List.singleton_sublist.mp h'
        obtain ⟨b, hb, hfb⟩ := List.mem_filterMap.mp hy
        exact ⟨c, b, (List.singleton_sublist.mpr hb).cons₂ c, hc, hfb⟩

theorem not_hasDuplicate_of_pairwise (re : Regexp) (l : List String)
    (hk : (ReadMigrationFiles.parsed re l).Pairwise (fun a b => ¬ sameKey a b)) :
    ¬ HasDuplicate re l := by
  rintro ⟨a, b, v, na, nb, d, hab, ha, hb⟩
  have hsub := hab.filterMap (ReadMigrationFiles.entry re)
  have hea := (entry_eq_some re a ⟨v, na, a, d⟩).mpr ⟨ha, rfl⟩
  have heb := (entry_eq_some re b ⟨v, nb, b, d⟩).mpr ⟨hb, rfl⟩
  rw [List.filterMap_cons_some hea, List.filterMap_cons_some heb, List.filterMap_nil] at hsub
  have hpw := List.Pairwise.sublist hsub hk
  rw [List.pairwise_cons] at hpw
  exact hpw.1 _ (List.mem_singleton.mpr rfl) ⟨rfl, rfl⟩

/-- The first loop on a whole listing. -/
theorem scan_listing (re : Regexp) (l : List String) :
    (ReadMigrationFiles.scan re l [] (fun _ _ => none) =
        Except.ok (ReadMigrationFiles.parsed re l) ∧
      (ReadMigrationFiles.parsed re l).Pairwise (fun a b => ¬ sameKey a b) ∧
      ¬ HasDuplicate re l) ∨
    (∃ a b v na nb d, ReadMigrationFiles.scan re l [] (fun _ _ => none) =
        Except.error (Error.duplicateVersion v a b) ∧ [a, b].Sublist l ∧
      parseFilenameSchema a re = Except.ok (v, na, d) ∧
      parseFilenameSchema b re = Except.ok (v, nb, d)) := by
  have h := scan_spec re l [] (fun _ _ => none)
    (by intro v d; simp [ReadMigrationFiles.parsed])
    (by simp [ReadMigrationFiles.parsed])
  simp only [List.nil_append] at h
  have h0 : ReadMigrationFiles.parsed re [] = [] := rfl
  rw [h0] at h
  rcases h with ⟨hok, hk⟩ | ⟨ta, tb, herr, hkey, hsub⟩
  · left
    exact ⟨hok, hk, not_hasDuplicate_of_pairwise re l hk⟩
  · right
    obtain ⟨a, b, hab, ha, hb⟩ := pair_sublist_of_filterMap _ l ta tb hsub
    obtain ⟨hpa, hfa⟩ := (entry_eq_some re a ta).mp ha
    obtain ⟨hpb, hfb⟩ := (entry_eq_some re b tb).mp hb
    refine ⟨a, b, ta.version, ta.name, tb.name, ta.d, ?_, hab, hpa, ?_⟩
    · rw [herr, hfa, hfb]
    · rw [hpb, hkey.1, hkey.2]

/-- C6: when two entries of the listing parse to the same version and
direction, `ReadMigrationFiles` returns no units and the duplicate error, which
carries the file names of two such entries; on every other listing it returns
a nil error. -/
theorem ReadMigrationFiles_duplicate (path : String) (l : List String) (re : Regexp) :
    (HasDuplicate re l →
      ∃ a b v na nb d,
        ReadMigrationFiles path (Except.ok l) re = ([], some (Error.duplicateVersion v a b)) ∧
        [a, b].Sublist l ∧
        parseFilenameSchema a re = Except.ok (v, na, d) ∧
        parseFilenameSchema b re = Except.ok (v, nb, d)) ∧
    (¬ HasDuplicate re l → (ReadMigrationFiles path (Except.ok l) re).2 = none) := by
  rcases scan_listing re l with ⟨hok, _, hnd⟩ | ⟨a, b, v, na, nb, d, herr, hab, ha, hb⟩
  · refine ⟨fun h => absurd h hnd, fun _ => ?_⟩
    simp only [ReadMigrationFiles, hok]
  · refine ⟨fun _ => ⟨a, b, v, na, nb, d, ?_, hab, ha, hb⟩, fun h => absurd ?_ h⟩
    · simp only [ReadMigrationFiles, herr]
    · exact ⟨a, b, v, na, nb, d, hab, ha, hb⟩

/-- The instance of C6 the claim gives: `7_a.up.sh` and `007_b.up.sh`. -/
theorem ReadMigrationFiles_duplicate_witness :
    HasDuplicate (FilenameRegex "sh") ["007_b.up.sh", "7_a.up.sh"] ∧
    ReadMigrationFiles "dir" (Except.ok ["007_b.up.sh", "7_a.up.sh"]) (FilenameRegex "sh") =
      ([], some (Error.duplicateVersion 7 "007_b.up.sh" "7_a.up.sh")) ∧
    (∃ a b v na nb d,
      ReadMigrationFiles "dir" (Except.ok ["007_b.up.sh", "7_a.up.sh"]) (FilenameRegex "sh") =
        ([], some (Error.duplicateVersion v a b)) ∧
      [a, b].Sublist ["007_b.up.sh", "7_a.up.sh"] ∧
      parseFilenameSchema a (FilenameRegex "sh") = Except.ok (v, na, d) ∧
      parseFilenameSchema b (FilenameRegex "sh") = Except.ok (v, nb, d)) ∧
    ¬ HasDuplicate (FilenameRegex "sh") listingMixed ∧
    (ReadMigrationFiles "dir" (Except.ok listingMixed) (FilenameRegex "sh")).2 = none :=
  have hdup : HasDuplicate (FilenameRegex "sh") ["007_b.up.sh", "7_a.up.sh"] :=
    ⟨"007_b.up.sh", "7_a.up.sh", 7, "b", "a", Direction.Up, List.Sublist.refl _, rfl, rfl⟩
  have hnodup : ¬ HasDuplicate (FilenameRegex "sh") listingMixed :=
    not_hasDuplicate_of_pairwise _ _ (by decide)
  ⟨hdup, by decide,
    (ReadMigrationFiles_duplicate "dir" ["007_b.up.sh", "7_a.up.sh"] (FilenameRegex "sh")).1 hdup,
    hnodup,
    (ReadMigrationFiles_duplicate "dir" listingMixed (FilenameRegex "sh")).2 hnodup⟩

/-! ## The second loop of ReadMigrationFiles -/

theorem pair_eq (path : String) (all rest : List tmpFile) (pv : List Version)
    (nf : MigrationFiles) :
    ReadMigrationFiles.pair path all rest pv nf =
      nf ++ (ReadMigrationFiles.firsts pv rest).map (ReadMigrationFiles.unit path all) := by
  induction rest generalizing pv nf with
  | nil => simp [ReadMigrationFiles.pair, ReadMigrationFiles.firsts]
  | cons file rest ih =>
    unfold ReadMigrationFiles.pair ReadMigrationFiles.firsts
    by_cases h : file.version ∈ pv
    · rw [if_pos h, if_pos h, ih]
    · rw [if_neg h, if_neg h, ih]
      simp

theorem mem_firsts (pv : List Version) (rest : List tmpFile) (t : tmpFile)
    (h : t ∈ ReadMigrationFiles.firsts pv rest) : t ∈ rest ∧ t.version ∉ pv := by
  induction rest generalizing pv with
  | nil => simp [ReadMigrationFiles.firsts] at h
  | cons file rest ih =>
    unfold ReadMigrationFiles.firsts at h
    by_cases hv : file.version ∈ pv
    · rw [if_pos hv] at h
      obtain ⟨h1, h2⟩ := ih pv h
      exact ⟨List.mem_cons_of_mem _ h1, h2⟩
    · rw [if_neg hv] at h
      rcases List.mem_cons.mp h with h | h
      · subst h
        exact ⟨List.mem_cons_self _ _, hv⟩
      · obtain ⟨h1, h2⟩ := ih _ h
        exact ⟨List.mem_cons_of_mem _ h1, fun hmem => h2 (List.mem_append_left _ hmem)⟩

theorem firsts_versions (pv : List Version) (rest : List tmpFile) (v : Version) :
    v ∈ (ReadMigrationFiles.firsts pv rest).map (fun t => t.version) ↔
      (v ∉ pv ∧ v ∈ rest.map (fun t => t.version)) := by
  induction rest generalizing pv with
  | nil => simp [ReadMigrationFiles.firsts]
  | cons file rest ih =>
    unfold ReadMigrationFiles.firsts
    by_cases hv : file.version ∈ pv
    · rw [if_pos hv, ih]
      simp only [List.map_cons, List.mem_cons]
      constructor
      · rintro ⟨h1, h2⟩
        exact ⟨h1, Or.inr h2⟩
      · rintro ⟨h1, h2 | h2⟩
        · subst h2
          exact absurd hv h1
        · exact ⟨h1, h2⟩
    · rw [if_neg hv]
      simp only [List.map_cons, List.mem_cons, ih, List.mem_append, List.mem_singleton]
      constructor
      · rintro (h | ⟨h1, h2⟩)
        · subst h
          exact ⟨hv, Or.inl rfl⟩
        · exact ⟨fun hmem => h1 (Or.inl hmem), Or.inr h2⟩
      · rintro ⟨h1, h2 | h2⟩
        · exact Or.inl h2
        · by_cases hvf : v = file.version
          · exact Or.inl hvf
          · refine Or.inr ⟨fun hmem => ?_, h2⟩
            rcases hmem with h | h | h
            · exact h1 h
            · exact hvf h
            · exact absurd h (List.not_mem_nil _)

theorem firsts_nodup (pv : List Version) (rest : List tmpFile) :
    ((ReadMigrationFiles.firsts pv rest).map (fun t => t.version)).Nodup := by
  induction rest generalizing pv with
  | nil => simp [ReadMigrationFiles.firsts]
  | cons file rest ih =>
    unfold ReadMigrationFiles.firsts
    by_cases hv : file.version ∈ pv
    · rw [if_pos hv]
      exact ih pv
    · rw [if_neg hv, List.map_cons, List.nodup_cons]
      refine ⟨?_, ih _⟩
      intro hmem
      have := ((firsts_versions _ rest file.version).mp hmem).1
      exact this (List.mem_append_right _ (List.mem_singleton.mpr rfl))

theorem unit_version (path : String) (all : List tmpFile) (file : tmpFile) :
    (ReadMigrationFiles.unit path all file).Version = file.version := by
  unfold ReadMigrationFiles.unit
  cases file.d <;> simp only <;> split <;> rfl

theorem unit_side (path : String) (all : List tmpFile) (file : tmpFile) :
    (ReadMigrationFiles.unit path all file).UpFile ≠ none ∨
      (ReadMigrationFiles.unit path all file).DownFile ≠ none := by
  unfold ReadMigrationFiles.unit
  cases file.d <;> simp only <;> split <;> simp

theorem sameKey_unique (all : List tmpFile)
    (hk : all.Pairwise (fun a b => ¬ sameKey a b)) (a b : tmpFile)
    (ha : a ∈ all) (hb : b ∈ all) (hab : sameKey a b) : a = b := by
  by_contra hne
  have hsymm : Symmetric (fun a b : tmpFile => ¬ sameKey a b) := by
    intro x y hxy hyx
    exact hxy ⟨hyx.1.symm, hyx.2.symm⟩
  exact hk.forall hsymm ha hb hne hab

/-- The side of a unit for a direction, in terms of the parsed entries: it is
the `File` of the entry of the unit's version and that direction. -/
theorem unit_sides (path : String) (all : List tmpFile)
    (hk : all.Pairwise (fun a b => ¬ sameKey a b)) (file : tmpFile) (hf : file ∈ all)
    (f : File) :
    ((ReadMigrationFiles.unit path all file).UpFile = some f ↔
      ∃ t ∈ all, t.version = file.version ∧ t.d = Direction.Up ∧
        f = ReadMigrationFiles.side path file.version t Direction.Up) ∧
    ((ReadMigrationFiles.unit path all file).DownFile = some f ↔
      ∃ t ∈ all, t.version = file.version ∧ t.d = Direction.Down ∧
        f = ReadMigrationFiles.side path file.version t Direction.Down) := by
  have hfound : ∀ (d : Direction) (file2 : tmpFile),
      all.find? (fun file2 => file2.version == file.version && file2.d == d) = some file2 →
      file2 ∈ all ∧ file2.version = file.version ∧ file2.d = d := by
    intro d file2 h
    have h1 := List.find?_some h
    simp only [Bool.and_eq_true, beq_iff_eq] at h1
    exact ⟨List.mem_of_find?_eq_some h, h1.1, h1.2⟩
  have hmissing : ∀ (d : Direction),
      all.find? (fun file2 => file2.version == file.version && file2.d == d) = none →
      ∀ t ∈ all, ¬ (t.version = file.version ∧ t.d = d) := by
    intro d h t ht
    have := List.find?_eq_none.mp h t ht
    simpa using this
  unfold ReadMigrationFiles.unit
  cases hd : file.d with
  | Up =>
    simp only
    have hup : ∀ t ∈ all, t.version = file.version → t.d = Direction.Up → t = file :=
      fun t ht hv hdt => sameKey_unique all hk t file ht hf ⟨hv, hdt.trans hd.symm⟩
    cases hfind : all.find? (fun file2 => file2.version == file.version && file2.d == Direction.Down) with
    | none =>
      simp only [Option.some.injEq]
      refine ⟨⟨fun h => ⟨file, hf, rfl, hd, h.symm⟩, ?_⟩, ⟨fun h => (by cases h), ?_⟩⟩
      · rintro ⟨t, ht, hv, hdt, hft⟩
        rw [hft, hup t ht hv hdt]
      · rintro ⟨t, ht, hv, hdt, _⟩
        exact absurd ⟨hv, hdt⟩ (hmissing _ hfind t ht)
    | some file2 =>
      obtain ⟨h2mem, h2v, h2d⟩ := hfound _ file2 hfind
      simp only [Option.some.injEq]
      refine ⟨⟨fun h => ⟨file, hf, rfl, hd, h.symm⟩, ?_⟩, ⟨fun h => ⟨file2, h2mem, h2v, h2d, h.symm⟩, ?_⟩⟩
      · rintro ⟨t, ht, hv, hdt, hft⟩
        rw [hft, hup t ht hv hdt]
      · rintro ⟨t, ht, hv, hdt, hft⟩
        rw [hft, sameKey_unique all hk t file2 ht h2mem ⟨hv.trans h2v.symm, hdt.trans h2d.symm⟩]
  | Down =>
    simp only
    have hdown : ∀ t ∈ all, t.version = file.version → t.d = Direction.Down → t = file :=
      fun t ht hv hdt => sameKey_unique all hk t file ht hf ⟨hv, hdt.trans hd.symm⟩
    cases hfind : all.find? (fun file2 => file2.version == file.version && file2.d == Direction.Up) with
    | none =>
      simp only [Option.some.injEq]
      refine ⟨⟨fun h => (by cases h), ?_⟩, ⟨fun h => ⟨file, hf, rfl, hd, h.symm⟩, ?_⟩⟩
      · rintro ⟨t, ht, hv, hdt, _⟩
        exact absurd ⟨hv, hdt⟩ (hmissing _ hfind t ht)
      · rintro ⟨t, ht, hv, hdt, hft⟩
        rw [hft, hdown t ht hv hdt]
    | some file2 =>
      obtain ⟨h2mem, h2v, h2d⟩ := hfound _ file2 hfind
      simp only [Option.some.injEq]
      refine ⟨⟨fun h => ⟨file2, h2mem, h2v, h2d, h.symm⟩, ?_⟩, ⟨fun h => ⟨file, hf, rfl, hd, h.symm⟩, ?_⟩⟩
      · rintro ⟨t, ht, hv, hdt, hft⟩
        rw [hft, sameKey_unique all hk t file2 ht h2mem ⟨hv.trans h2v.symm, hdt.trans h2d.symm⟩]
      · rintro ⟨t, ht, hv, hdt, hft⟩
        rw [hft, hdown t ht hv hdt]

/-! ## The result of ReadMigrationFiles -/

theorem migrationFile_eq (a b : MigrationFile) (h1 : a.Version = b.Version)
    (h2 : a.UpFile = b.UpFile) (h3 : a.DownFile = b.DownFile) : a = b := by
  cases a
  cases b
  simp only at h1 h2 h3
  simp [h1, h2, h3]

theorem exists_parsed_iff (path : String) (re : Regexp) (l : List String)
    (v : Version) (d : Direction) (f : File) :
    (∃ t ∈ ReadMigrationFiles.parsed re l, t.version = v ∧ t.d = d ∧
        f = ReadMigrationFiles.side path v t d) ↔ IsFileOf path re l v d f := by
  unfold IsFileOf
  constructor
  · rintro ⟨t, ht, hv, hd, hf⟩
    obtain ⟨hmem, hp⟩ := (mem_parsed re l t).mp ht
    refine ⟨t.filename, hmem, t.name, ?_, hf⟩
    rw [hp, hv, hd]
  · rintro ⟨name, hmem, label, hp, hf⟩
    exact ⟨⟨v, label, name, d⟩, (mem_parsed re l _).mpr ⟨hmem, hp⟩, rfl, rfl, hf⟩

theorem hasVersion_iff (re : Regexp) (l : List String) (v : Version) :
    HasVersion re l v ↔ v ∈ (ReadMigrationFiles.parsed re l).map (fun t => t.version) := by
  unfold HasVersion
  rw [List.mem_map]
  constructor
  · rintro ⟨name, hmem, label, d, hp⟩
    exact ⟨⟨v, label, name, d⟩, (mem_parsed re l _).mpr ⟨hmem, hp⟩, rfl⟩
  · rintro ⟨t, ht, hv⟩
    obtain ⟨hmem, hp⟩ := (mem_parsed re l t).mp ht
    exact ⟨t.filename, hmem, t.name, t.d, by rw [hp, hv]⟩

/-- What `ReadMigrationFiles` returns when it returns a nil error. -/
theorem ReadMigrationFiles_ok (path : String) (l : List String) (re : Regexp)
    (hok : (ReadMigrationFiles path (Except.ok l) re).2 = none) :
    ReadMigrationFiles path (Except.ok l) re =
      (sortSort MigrationFiles.Less ((ReadMigrationFiles.firsts [] (ReadMigrationFiles.parsed re l)).map
        (ReadMigrationFiles.unit path (ReadMigrationFiles.parsed re l))), none) ∧
    (ReadMigrationFiles.parsed re l).Pairwise (fun a b => ¬ sameKey a b) := by
  rcases scan_listing re l with ⟨hscan, hk, _⟩ | ⟨a, b, v, na, nb, d, herr, _, _, _⟩
  · refine ⟨?_, hk⟩
    simp only [ReadMigrationFiles, hscan, pair_eq, List.nil_append]
  · simp [ReadMigrationFiles, herr] at hok

/-- The units the second loop builds are the units of the versions of the
listing, each with the files of the listing for its version. -/
theorem mem_units_iff (path : String) (l : List String) (re : Regexp)
    (hk : (ReadMigrationFiles.parsed re l).Pairwise (fun a b => ¬ sameKey a b))
    (u : MigrationFile) :
    u ∈ (ReadMigrationFiles.firsts [] (ReadMigrationFiles.parsed re l)).map
        (ReadMigrationFiles.unit path (ReadMigrationFiles.parsed re l)) ↔
      (HasVersion re l u.Version ∧
        (∀ f, u.UpFile = some f ↔ IsFileOf path re l u.Version Direction.Up f) ∧
        (∀ f, u.DownFile = some f ↔ IsFileOf path re l u.Version Direction.Down f)) := by
  have hunit : ∀ t ∈ ReadMigrationFiles.firsts [] (ReadMigrationFiles.parsed re l),
      HasVersion re l t.version ∧
      (∀ f, (ReadMigrationFiles.unit path (ReadMigrationFiles.parsed re l) t).UpFile = some f ↔
        IsFileOf path re l t.version Direction.Up f) ∧
      (∀ f, (ReadMigrationFiles.unit path (ReadMigrationFiles.parsed re l) t).DownFile = some f ↔
        IsFileOf path re l t.version Direction.Down f) := by
    intro t ht
    have htmem := (mem_firsts _ _ t ht).1
    refine ⟨(hasVersion_iff re l _).mpr (List.mem_map.mpr ⟨t, htmem, rfl⟩), ?_, ?_⟩
    · intro f
      rw [← exists_parsed_iff]
      exact (unit_sides path _ hk t htmem f).1
    · intro f
      rw [← exists_parsed_iff]
      exact (unit_sides path _ hk t htmem f).2
  rw [List.mem_map]
  constructor
  · rintro ⟨t, ht, rfl⟩
    rw [unit_version]
    exact hunit t ht
  · rintro ⟨hv, hup, hdown⟩
    have hmem : u.Version ∈ (ReadMigrationFiles.firsts [] (ReadMigrationFiles.parsed re l)).map
        (fun t => t.version) :=
      (firsts_versions [] _ _).mpr ⟨List.not_mem_nil _, (hasVersion_iff re l _).mp hv⟩
    obtain ⟨t, ht, htv⟩ := List.mem_map.mp hmem
    refine ⟨t, ht, ?_⟩
    obtain ⟨_, hup2, hdown2⟩ := hunit t ht
    rw [htv] at hup2 hdown2
    apply migrationFile_eq
    · rw [unit_version, htv]
    · apply Option.ext
      intro f
      simp only [Option.mem_def]
      rw [hup2, hup]
    · apply Option.ext
      intro f
      simp only [Option.mem_def]
      rw [hdown2, hdown]

/-- The versions of the result of a successful discovery are strictly ascending. -/
theorem result_sorted (path : String) (tmp : List tmpFile) :
    (sortSort MigrationFiles.Less ((ReadMigrationFiles.firsts [] tmp).map
      (ReadMigrationFiles.unit path tmp))).Pairwise (fun a b => a.Version < b.Version) := by
  apply pairwise_lt_of_le_of_nodup (fun u : MigrationFile => u.Version) _ (sortAsc_pairwise _)
  refine ((sortSort_perm MigrationFiles.Less _).map _).nodup_iff.mpr ?_
  rw [List.map_map]
  have : ((fun u : MigrationFile => u.Version) ∘ ReadMigrationFiles.unit path tmp) =
      (fun t => t.version) := by
    funext t
    exact unit_version path tmp t
  rw [this]
  exact firsts_nodup [] tmp

/-- C7: when `ReadMigrationFiles` returns a nil error, its result is strictly
ascending by version (so it has one unit per version at most), the versions of
its units are exactly the versions of the file names that parse, and every
unit has an up file or a down file; a listing with no name that matches the
pattern gives the empty result and a nil error. -/
theorem ReadMigrationFiles_units (path : String) (l : List String) (re : Regexp) :
    ((ReadMigrationFiles path (Except.ok l) re).2 = none →
      (ReadMigrationFiles path (Except.ok l) re).1.Pairwise (fun a b => a.Version < b.Version) ∧
      (∀ v, (∃ u ∈ (ReadMigrationFiles path (Except.ok l) re).1, u.Version = v) ↔
        ∃ name ∈ l, ∃ label d, parseFilenameSchema name re = Except.ok (v, label, d)) ∧
      (∀ u ∈ (ReadMigrationFiles path (Except.ok l) re).1, u.UpFile ≠ none ∨ u.DownFile ≠ none)) ∧
    ((∀ name ∈ l, (re.FindStringSubmatch name).length ≠ 4) →
      ReadMigrationFiles path (Except.ok l) re = ([], none)) := by
  constructor
  · intro hok
    obtain ⟨heq, hk⟩ := ReadMigrationFiles_ok path l re hok
    rw [heq]
    refine ⟨result_sorted path _, ?_, ?_⟩
    · intro v
      show _ ↔ HasVersion re l v
      constructor
      · rintro ⟨u, hu, rfl⟩
        exact ((mem_units_iff path l re hk u).mp
          ((sortSort_perm MigrationFiles.Less _).mem_iff.mp hu)).1
      · intro hv
        have hmem : v ∈ (ReadMigrationFiles.firsts [] (ReadMigrationFiles.parsed re l)).map
            (fun t => t.version) :=
          (firsts_versions [] _ _).mpr ⟨List.not_mem_nil _, (hasVersion_iff re l _).mp hv⟩
        obtain ⟨t, ht, htv⟩ := List.mem_map.mp hmem
        refine ⟨ReadMigrationFiles.unit path (ReadMigrationFiles.parsed re l) t, ?_, ?_⟩
        · exact (sortSort_perm MigrationFiles.Less _).mem_iff.mpr (List.mem_map.mpr ⟨t, ht, rfl⟩)
        · rw [unit_version]
          exact htv
    · intro u hu
      obtain ⟨t, _, rfl⟩ := List.mem_map.mp ((sortSort_perm MigrationFiles.Less _).mem_iff.mp hu)
      exact unit_side path _ t
  · intro hno
    have hparsed : ReadMigrationFiles.parsed re l = [] := by
      unfold ReadMigrationFiles.parsed
      rw [List.filterMap_eq_nil_iff]
      intro name hname
      rw [entry_eq_none]
      refine ⟨Error.parseSchema, ?_⟩
      unfold parseFilenameSchema
      simp only [hno name hname, ne_eq, not_false_eq_true, if_true]
    rcases scan_listing re l with ⟨hscan, _, _⟩ | ⟨a, b, v, na, nb, d, _, hab, ha, _⟩
    · simp only [ReadMigrationFiles, hscan, hparsed]
      rfl
    · have hmem : a ∈ l := hab.subset (List.mem_cons_self _ _)
      have := (entry_eq_some re a ⟨v, na, a, d⟩).mpr ⟨ha, rfl⟩
      have hin : (⟨v, na, a, d⟩ : tmpFile) ∈ ReadMigrationFiles.parsed re l :=
        List.mem_filterMap.mpr ⟨a, hmem, this⟩
      rw [hparsed] at hin
      exact absurd hin (List.not_mem_nil _)

/-- An instance of C7: a listing with two versions and a name that does not
match, and a listing without a matching name. -/
theorem ReadMigrationFiles_units_witness :
    (ReadMigrationFiles "dir" (Except.ok listingMixed) (FilenameRegex "sh")).2 = none ∧
    ((ReadMigrationFiles "dir" (Except.ok listingMixed) (FilenameRegex "sh")).1.map
      (fun u => u.Version)) = [1, 2] ∧
    (∀ name ∈ ["README.md", "notes.txt"],
      ((FilenameRegex "sh").FindStringSubmatch name).length ≠ 4) ∧
    ((ReadMigrationFiles "dir" (Except.ok listingMixed) (FilenameRegex "sh")).1.Pairwise
        (fun a b => a.Version < b.Version) ∧
      (∀ v, (∃ u ∈ (ReadMigrationFiles "dir" (Except.ok listingMixed) (FilenameRegex "sh")).1,
          u.Version = v) ↔
        ∃ name ∈ listingMixed, ∃ label d,
          parseFilenameSchema name (FilenameRegex "sh") = Except.ok (v, label, d)) ∧
      (∀ u ∈ (ReadMigrationFiles "dir" (Except.ok listingMixed) (FilenameRegex "sh")).1,
        u.UpFile ≠ none ∨ u.DownFile ≠ none)) ∧
    ReadMigrationFiles "dir" (Except.ok ["README.md", "notes.txt"]) (FilenameRegex "sh") =
      ([], none) :=
  ⟨by decide, by decide, by decide,
    (ReadMigrationFiles_units "dir" listingMixed (FilenameRegex "sh")).1 (by decide),
    (ReadMigrationFiles_units "dir" ["README.md", "notes.txt"] (FilenameRegex "sh")).2 (by decide)⟩

theorem isFileOf_perm (path : String) (re : Regexp) (l l2 : List String) (hp : l2.Perm l)
    (v : Version) (d : Direction) (f : File) :
    IsFileOf path re l2 v d f ↔ IsFileOf path re l v d f := by
  unfold IsFileOf
  constructor
  · rintro ⟨name, hmem, h⟩
    exact ⟨name, hp.mem_iff.mp hmem, h⟩
  · rintro ⟨name, hmem, h⟩
    exact ⟨name, hp.mem_iff.mpr hmem, h⟩

theorem hasVersion_perm (re : Regexp) (l l2 : List String) (hp : l2.Perm l) (v : Version) :
    HasVersion re l2 v ↔ HasVersion re l v := by
  unfold HasVersion
  constructor
  · rintro ⟨name, hmem, h⟩
    exact ⟨name, hp.mem_iff.mp hmem, h⟩
  · rintro ⟨name, hmem, h⟩
    exact ⟨name, hp.mem_iff.mpr hmem, h⟩

/-- C8: when `ReadMigrationFiles` returns a nil error, every unit of the result
has an up file exactly when the listing has an up file of the unit's version,
and a down file exactly when the listing has a down file of that version; the
side is the `File` with that entry's own file name and label, the unit's
version and the matching direction.  The result is the same for every order
of the entries. -/
theorem ReadMigrationFiles_pairing (path : String) (l : List String) (re : Regexp)
    (hok : (ReadMigrationFiles path (Except.ok l) re).2 = none) :
    (∀ u ∈ (ReadMigrationFiles path (Except.ok l) re).1,
      (∀ f, u.UpFile = some f ↔ IsFileOf path re l u.Version Direction.Up f) ∧
      (∀ f, u.DownFile = some f ↔ IsFileOf path re l u.Version Direction.Down f)) ∧
    (∀ l2 : List String, l2.Perm l →
      ReadMigrationFiles path (Except.ok l2) re = ReadMigrationFiles path (Except.ok l) re) := by
  obtain ⟨heq, hk⟩ := ReadMigrationFiles_ok path l re hok
  constructor
  · intro u hu
    rw [heq] at hu
    exact ((mem_units_iff path l re hk u).mp
      ((sortSort_perm MigrationFiles.Less _).mem_iff.mp hu)).2
  · intro l2 hp
    have hpp : (ReadMigrationFiles.parsed re l2).Perm (ReadMigrationFiles.parsed re l) :=
      hp.filterMap _
    have hk2 : (ReadMigrationFiles.parsed re l2).Pairwise (fun a b => ¬ sameKey a b) := by
      refine (hpp.pairwise_iff ?_).mpr hk
      intro x y hxy hyx
      exact hxy ⟨hyx.1.symm, hyx.2.symm⟩
    have hok2 : (ReadMigrationFiles path (Except.ok l2) re).2 = none := by
      rcases scan_listing re l2 with ⟨hscan, _, _⟩ | ⟨a, b, v, na, nb, d, _, hab, ha, hb⟩
      · simp only [ReadMigrationFiles, hscan]
      · exact absurd ⟨a, b, v, na, nb, d, hab, ha, hb⟩ (not_hasDuplicate_of_pairwise re l2 hk2)
    obtain ⟨heq2, _⟩ := ReadMigrationFiles_ok path l2 re hok2
    rw [heq, heq2]
    have hs1 := result_sorted path (ReadMigrationFiles.parsed re l)
    have hs2 := result_sorted path (ReadMigrationFiles.parsed re l2)
    have hnd : ∀ r : MigrationFiles, r.Pairwise (fun a b => a.Version < b.Version) → r.Nodup := by
      intro r hr
      exact hr.imp (fun h e => by rw [e] at h; exact Nat.lt_irrefl _ h)
    have hperm := (List.perm_ext_iff_of_nodup (hnd _ hs2) (hnd _ hs1)).mpr (by
      intro u
      rw [(sortSort_perm MigrationFiles.Less _).mem_iff, (sortSort_perm MigrationFiles.Less _).mem_iff,
        mem_units_iff path l2 re hk2 u, mem_units_iff path l re hk u, hasVersion_perm re l l2 hp]
      simp only [isFileOf_perm path re l l2 hp])
    rw [eq_of_perm_of_pairwise_lt (fun u : MigrationFile => u.Version) _ _ hperm hs2 hs1]

/-- The instance of C8 the specification gives: the files `5_init.up.ext` and
`5_init.down.ext` give one unit of version 5 with both sides, named `init`. -/
theorem ReadMigrationFiles_pairing_witness :
    (ReadMigrationFiles "dir" (Except.ok listing5) (FilenameRegex "ext")).2 = none ∧
    ReadMigrationFiles "dir" (Except.ok listing5) (FilenameRegex "ext") =
      ([{ Version := 5,
          UpFile := some { Path := "dir", FileName := "5_init.up.ext", Version := 5,
                           Name := "init", Content := [], Direction := Direction.Up },
          DownFile := some { Path := "dir", FileName := "5_init.down.ext", Version := 5,
                             Name := "init", Content := [], Direction := Direction.Down } }],
        none) ∧
    ((∀ u ∈ (ReadMigrationFiles "dir" (Except.ok listing5) (FilenameRegex "ext")).1,
      (∀ f, u.UpFile = some f ↔
        IsFileOf "dir" (FilenameRegex "ext") listing5 u.Version Direction.Up f) ∧
      (∀ f, u.DownFile = some f ↔
        IsFileOf "dir" (FilenameRegex "ext") listing5 u.Version Direction.Down f)) ∧
    (∀ l2 : List String, l2.Perm listing5 →
      ReadMigrationFiles "dir" (Except.ok l2) (FilenameRegex "ext") =
        ReadMigrationFiles "dir" (Except.ok listing5) (FilenameRegex "ext"))) :=
  ⟨by decide, by decide,
    ReadMigrationFiles_pairing "dir" listing5 (FilenameRegex "ext") (by decide)⟩

/-! ## strconv.ParseUint on strings of digits -/

theorem digitsValue_ge (ds : List Char) (n : Nat) : n ≤ digitsValue ds n := by
  induction ds generalizing n with
  | nil => exact Nat.le_refl _
  | cons c cs ih =>
    have h := ih (n * 10 + (c.toNat - 48))
    simp only [digitsValue, List.foldl_cons] at h ⊢
    omega

theorem digit_le_nine (c : Char) (h : c.isDigit = true) : c.toNat - 48 ≤ 9 := by
  simp only [Char.isDigit, Bool.and_eq_true, decide_eq_true_eq] at h
  have h2 : c.val.toNat ≤ 57 := by
    have := h.2
    rw [UInt32.le_def] at this
    simpa using this
  show c.val.toNat - 48 ≤ 9
  omega

/-- A string of digits whose value fits 64 bits parses to that value. -/
theorem ParseUint_loop_ok (ds : List Char) (n : Nat) (hdig : ∀ c ∈ ds, c.isDigit = true)
    (hv : digitsValue ds n < 18446744073709551616) :
    ParseUint.loop ds n = Except.ok (digitsValue ds n) := by
  induction ds generalizing n with
  | nil => rfl
  | cons c cs ih =>
    have hc : c.isDigit = true := hdig c (List.mem_cons_self _ _)
    have hd := digit_le_nine c hc
    have hstep : digitsValue (c :: cs) n = digitsValue cs (n * 10 + (c.toNat - 48)) := rfl
    rw [hstep] at hv ⊢
    have hge := digitsValue_ge cs (n * 10 + (c.toNat - 48))
    have h1 : ¬ n ≥ ParseUint.cutoff := by
      unfold ParseUint.cutoff
      omega
    have hmod : (n * 10 + (c.toNat - 48)) % 18446744073709551616 = n * 10 + (c.toNat - 48) :=
      Nat.mod_eq_of_lt (by omega)
    have h2 : ¬ ((n * 10 + (c.toNat - 48)) % 18446744073709551616 < n * 10 ∨
        (n * 10 + (c.toNat - 48)) % 18446744073709551616 > ParseUint.maxVal) := by
      rw [hmod]
      unfold ParseUint.maxVal
      omega
    unfold ParseUint.loop
    simp only [hc, if_true, h1, if_false, h2]
    rw [hmod]
    exact ih _ (fun c' hc' => hdig c' (List.mem_cons_of_mem _ hc')) hv

/-- A string of digits whose value does not fit 64 bits does not parse. -/
theorem ParseUint_loop_range (ds : List Char) (n : Nat) (hdig : ∀ c ∈ ds, c.isDigit = true)
    (hn : n < 18446744073709551616) (hv : 18446744073709551616 ≤ digitsValue ds n) :
    ParseUint.loop ds n = Except.error NumError.outOfRange := by
  induction ds generalizing n with
  | nil =>
    simp only [digitsValue, List.foldl_nil] at hv
    omega
  | cons c cs ih =>
    have hc : c.isDigit = true := hdig c (List.mem_cons_self _ _)
    have hd := digit_le_nine c hc
    have hstep : digitsValue (c :: cs) n = digitsValue cs (n * 10 + (c.toNat - 48)) := rfl
    rw [hstep] at hv
    unfold ParseUint.loop
    simp only [hc, if_true]
    by_cases h1 : n ≥ ParseUint.cutoff
    · simp only [h1, if_true]
    · simp only [h1, if_false]
      have h1b : n < 1844674407370955162 := by
        unfold ParseUint.cutoff at h1
        omega
      by_cases hov : n * 10 + (c.toNat - 48) < 18446744073709551616
      · have hmod : (n * 10 + (c.toNat - 48)) % 18446744073709551616 = n * 10 + (c.toNat - 48) :=
          Nat.mod_eq_of_lt hov
        have h2 : ¬ ((n * 10 + (c.toNat - 48)) % 18446744073709551616 < n * 10 ∨
            (n * 10 + (c.toNat - 48)) % 18446744073709551616 > ParseUint.maxVal) := by
          rw [hmod]
          unfold ParseUint.maxVal
          omega
        simp only [h2, if_false]
        rw [hmod]
        exact ih _ (fun c' hc' => hdig c' (List.mem_cons_of_mem _ hc')) hov hv
      · have h2 : (n * 10 + (c.toNat - 48)) % 18446744073709551616 < n * 10 ∨
            (n * 10 + (c.toNat - 48)) % 18446744073709551616 > ParseUint.maxVal := by
          left
          omega
        simp only [h2, if_true]

/-! ## The file name pattern on well-formed names -/

theorem span_digits (ds body : List Char) (hdig : ∀ c ∈ ds, c.isDigit = true) :
    (ds ++ '_' :: body).span Char.isDigit = (ds, '_' :: body) := by
  have h0 : Char.isDigit '_' = false := by decide
  rw [List.span_eq_take_drop, List.takeWhile_append_of_pos hdig,
    List.dropWhile_append_of_pos hdig, List.takeWhile_cons, List.dropWhile_cons]
  simp [h0]

theorem dropSuffix_append (front suffix : List Char) :
    dropSuffix? suffix (front ++ suffix) = some front := by
  unfold dropSuffix?
  have h : suffix.isSuffixOf (front ++ suffix) = true :=
    List.isSuffixOf_iff_suffix.mpr ⟨front, rfl⟩
  simp [h]

theorem dropSuffix_up_down (front ext : List Char) :
    dropSuffix? ('.' :: 'u' :: 'p' :: '.' :: ext)
      (front ++ '.' :: 'd' :: 'o' :: 'w' :: 'n' :: '.' :: ext) = none := by
  unfold dropSuffix?
  have h : ¬ List.isSuffixOf ('.' :: 'u' :: 'p' :: '.' :: ext)
      (front ++ '.' :: 'd' :: 'o' :: 'w' :: 'n' :: '.' :: ext) = true := by
    rw [List.isSuffixOf_iff_suffix]
    rintro ⟨x, hx⟩
    have h1 : (x ++ ['.', 'u']) ++ ('p' :: '.' :: ext) =
        (front ++ ['.', 'd', 'o', 'w']) ++ ('n' :: '.' :: ext) := by
      simpa using hx
    have h2 := (List.append_inj' h1 rfl).2
    simp at h2
  simp [h]

/-- `FindStringSubmatch` on a name of the form of the pattern gives the name
and its three parts. -/
theorem findFilenameSubmatch_wellformed (ds l e t : String)
    (hds : ds.data ≠ []) (hdig : ∀ c ∈ ds.data, c.isDigit = true)
    (hl : '\n' ∉ l.data) (he : ∀ c ∈ e.data, c.isAlphanum = true)
    (ht : t = "up" ∨ t = "down") :
    findFilenameSubmatch e (ds ++ "_" ++ l ++ "." ++ t ++ "." ++ e) =
      [ds ++ "_" ++ l ++ "." ++ t ++ "." ++ e, ds, l, t] := by
  have hne : '\n' ∉ e.data := by
    intro hmem
    have := he _ hmem
    revert this
    decide
  rcases ht with rfl | rfl
  · have hdata : (ds ++ "_" ++ l ++ "." ++ "up" ++ "." ++ e).data =
        ds.data ++ '_' :: (l.data ++ '.' :: 'u' :: 'p' :: '.' :: e.data) := by
      simp [String.data_append]
    have hsuf : (".up." ++ e).data = '.' :: 'u' :: 'p' :: '.' :: e.data := by
      simp [String.data_append]
    have hnl : ¬ (ds.data = [] ∨ '\n' ∈ l.data ++ '.' :: 'u' :: 'p' :: '.' :: e.data) := by
      simp [hds, hl, hne]
    unfold findFilenameSubmatch
    rw [hdata, span_digits _ _ hdig]
    simp only [hnl, if_false, hsuf, dropSuffix_append]
  · have hdata : (ds ++ "_" ++ l ++ "." ++ "down" ++ "." ++ e).data =
        ds.data ++ '_' :: (l.data ++ '.' :: 'd' :: 'o' :: 'w' :: 'n' :: '.' :: e.data) := by
      simp [String.data_append]
    have hsuf : (".down." ++ e).data = '.' :: 'd' :: 'o' :: 'w' :: 'n' :: '.' :: e.data := by
      simp [String.data_append]
    have hsufu : (".up." ++ e).data = '.' :: 'u' :: 'p' :: '.' :: e.data := by
      simp [String.data_append]
    have hnl : ¬ (ds.data = [] ∨
        '\n' ∈ l.data ++ '.' :: 'd' :: 'o' :: 'w' :: 'n' :: '.' :: e.data) := by
      simp [hds, hl, hne]
    unfold findFilenameSubmatch
    rw [hdata, span_digits _ _ hdig]
    simp only [hnl, if_false, hsuf, hsufu, dropSuffix_up_down, dropSuffix_append]

theorem dropSuffix_eq_some (suffix body front : List Char)
    (h : dropSuffix? suffix body = some front) : body = front ++ suffix := by
  unfold dropSuffix? at h
  by_cases hs : suffix.isSuffixOf body = true
  · rw [if_pos hs] at h
    obtain ⟨t, rfl⟩ := List.isSuffixOf_iff_suffix.mp hs
    simp at h
    rw [h]
  · rw [if_neg hs] at h
    cases h

/-- Every name `FindStringSubmatch` accepts has the form of the pattern, and
the result holds the name and its three parts. -/
theorem findFilenameSubmatch_sound (e s : String) (h : findFilenameSubmatch e s ≠ []) :
    ∃ ds l t : String,
      s = ds ++ "_" ++ l ++ "." ++ t ++ "." ++ e ∧
      ds.data ≠ [] ∧ (∀ c ∈ ds.data, c.isDigit = true) ∧ '\n' ∉ l.data ∧
      (t = "up" ∨ t = "down") ∧ findFilenameSubmatch e s = [s, ds, l, t] := by
  have hspan := List.span_eq_take_drop Char.isDigit s.data
  have hsplit := List.takeWhile_append_dropWhile Char.isDigit s.data
  have hdig : ∀ c ∈ s.data.takeWhile Char.isDigit, c.isDigit = true :=
    fun c hc => List.mem_takeWhile_imp hc
  generalize s.data.takeWhile Char.isDigit = digits at hspan hsplit hdig
  generalize hrest : s.data.dropWhile Char.isDigit = rest at hspan hsplit
  have hform : ∀ (body label : List Char) (t : String), rest = '_' :: body →
      body = label ++ (("." ++ t ++ ".") ++ e).data →
      s = String.mk digits ++ "_" ++ String.mk label ++ "." ++ t ++ "." ++ e := by
    intro body label t hb hl
    apply String.ext
    rw [← hsplit, hb, hl]
    simp [String.data_append]
  unfold findFilenameSubmatch at h ⊢
  rw [hspan] at h ⊢
  match rest, hform with
  | [], _ => simp at h
  | c :: body, hform =>
    by_cases hc : c = '_'
    · subst hc
      simp only at h ⊢
      by_cases hbad : digits = [] ∨ '\n' ∈ body
      · rw [if_pos hbad] at h
        exact absurd rfl h
      · rw [if_neg hbad] at h ⊢
        have hd : digits ≠ [] := fun hd => hbad (Or.inl hd)
        cases hup : dropSuffix? (".up." ++ e).data body with
        | some label =>
          have hbody := dropSuffix_eq_some _ _ _ hup
          have hnl : '\n' ∉ label := by
            intro hmem
            exact hbad (Or.inr (by rw [hbody]; exact List.mem_append_left _ hmem))
          refine ⟨String.mk digits, String.mk label, "up", ?_, hd, hdig, hnl, Or.inl rfl, rfl⟩
          exact hform body label "up" rfl (by rw [hbody]; simp [String.data_append])
        | none =>
          rw [hup] at h
          simp only at h ⊢
          cases hdown : dropSuffix? (".down." ++ e).data body with
          | some label =>
            have hbody := dropSuffix_eq_some _ _ _ hdown
            have hnl : '\n' ∉ label := by
              intro hmem
              exact hbad (Or.inr (by rw [hbody]; exact List.mem_append_left _ hmem))
            refine ⟨String.mk digits, String.mk label, "down", ?_, hd, hdig, hnl, Or.inr rfl, rfl⟩
            exact hform body label "down" rfl (by rw [hbody]; simp [String.data_append])
          | none =>
            rw [hdown] at h
            exact absurd rfl h
    · exfalso
      apply h
      split
      · next heq =>
        simp only [Prod.mk.injEq, List.cons.injEq] at heq
        exact absurd heq.2.1 hc
      · rfl

/-- C9: on the name `ds_l.t.e`, with `ds` a non-empty string of digits, `l`
without a newline, `t` one of `up` and `down` and `e` alphanumeric,
`parseFilenameSchema` with `FilenameRegex(e)` returns the value of `ds`, the
label `l` and the direction of `t` when the value of `ds` is below `2^64`, and
an error when it is not. -/
theorem parseFilenameSchema_spec (ds l e t : String)
    (hds : ds.data ≠ []) (hdig : ∀ c ∈ ds.data, c.isDigit = true)
    (hl : '\n' ∉ l.data) (he : ∀ c ∈ e.data, c.isAlphanum = true)
    (ht : t = "up" ∨ t = "down") :
    (digitsValue ds.data 0 < 2 ^ 64 →
      parseFilenameSchema (ds ++ "_" ++ l ++ "." ++ t ++ "." ++ e) (FilenameRegex e) =
        Except.ok (digitsValue ds.data 0, l,
          if t = "up" then Direction.Up else Direction.Down)) ∧
    (2 ^ 64 ≤ digitsValue ds.data 0 →
      parseFilenameSchema (ds ++ "_" ++ l ++ "." ++ t ++ "." ++ e) (FilenameRegex e) =
        Except.error (Error.parseVersion (ds ++ "_" ++ l ++ "." ++ t ++ "." ++ e))) := by
  have hfind := findFilenameSubmatch_wellformed ds l e t hds hdig hl he ht
  constructor
  · intro hv
    have hparse : ParseUint ds = Except.ok (digitsValue ds.data 0) := by
      unfold ParseUint
      rw [if_neg hds]
      exact ParseUint_loop_ok ds.data 0 hdig (by simpa using hv)
    unfold parseFilenameSchema FilenameRegex
    simp only [hfind]
    rcases ht with rfl | rfl
    · simp [hparse]
    · have hne : ¬ ("down" = "up") := by decide
      simp [hparse, hne]
  · intro hv
    have hparse : ParseUint ds = Except.error NumError.outOfRange := by
      unfold ParseUint
      rw [if_neg hds]
      exact ParseUint_loop_range ds.data 0 hdig (by decide) (by simpa using hv)
    unfold parseFilenameSchema FilenameRegex
    simp only [hfind]
    simp [hparse]

/-- Instances of C9: `007_b.down.sh` and a name whose digits do not fit 64 bits. -/
theorem parseFilenameSchema_spec_witness :
    digitsValue "007".data 0 = 7 ∧
    parseFilenameSchema ("007" ++ "_" ++ "b" ++ "." ++ "down" ++ "." ++ "sh") (FilenameRegex "sh") =
      Except.ok (digitsValue "007".data 0, "b",
        if "down" = "up" then Direction.Up else Direction.Down) ∧
    parseFilenameSchema
        ("99999999999999999999999" ++ "_" ++ "x" ++ "." ++ "up" ++ "." ++ "sh")
        (FilenameRegex "sh") =
      Except.error (Error.parseVersion
        ("99999999999999999999999" ++ "_" ++ "x" ++ "." ++ "up" ++ "." ++ "sh")) :=
  ⟨by decide,
    (parseFilenameSchema_spec "007" "b" "sh" "down" (by decide) (by decide) (by decide)
      (by decide) (by decide)).1 (by decide),
    (parseFilenameSchema_spec "99999999999999999999999" "x" "sh" "up" (by decide) (by decide)
      (by decide) (by decide) (by decide)).2 (by decide)⟩

/-! ## Names that do not parse -/

theorem scan_skip (re : Regexp) (name : String) (pre post : List String)
    (tmp : List tmpFile) (m : TmpFileMap)
    (herr : ReadMigrationFiles.entry re name = none) :
    ReadMigrationFiles.scan re (pre ++ name :: post) tmp m =
      ReadMigrationFiles.scan re (pre ++ post) tmp m := by
  induction pre generalizing tmp m with
  | nil => exact scan_cons_none re name post tmp m herr
  | cons file pre ih =>
    simp only [List.cons_append]
    cases he : ReadMigrationFiles.entry re file with
    | none => rw [scan_cons_none _ _ _ _ _ he, scan_cons_none _ _ _ _ _ he, ih]
    | some t =>
      cases hl : m t.version t.d with
      | none => rw [scan_cons_fresh _ _ _ _ _ t he hl, scan_cons_fresh _ _ _ _ _ t he hl, ih]
      | some existing =>
        rw [scan_cons_existing _ _ _ _ _ t existing he hl,
          scan_cons_existing _ _ _ _ _ t existing he hl]

/-- C10, as the claim states it, fails: the second name of the listing matches
the pattern and `parseFilenameSchema` returns the version error for it, and
`ReadMigrationFiles` returns a nil error with the unit of the other file. -/
theorem ReadMigrationFiles_overflow_skipped :
    ((FilenameRegex "sh").FindStringSubmatch "99999999999999999999999_x.up.sh").length = 4 ∧
    parseFilenameSchema "99999999999999999999999_x.up.sh" (FilenameRegex "sh") =
      Except.error (Error.parseVersion "99999999999999999999999_x.up.sh") ∧
    ReadMigrationFiles "dir" (Except.ok listingOverflow) (FilenameRegex "sh") =
      ([{ Version := 1,
          UpFile := some { Path := "dir", FileName := "1_a.up.sh", Version := 1, Name := "a",
                           Content := [], Direction := Direction.Up },
          DownFile := none }], none) := by
  refine ⟨by decide, by rfl, by decide⟩

/-- C10, amended: a name for which `parseFilenameSchema` returns an error, be
it that the name does not match the pattern or that it matches and its
version does not parse, is skipped: `ReadMigrationFiles` returns what it
returns for the listing without that name. -/
theorem ReadMigrationFiles_skips (path name : String) (pre post : List String) (re : Regexp)
    (err : Error) (herr : parseFilenameSchema name re = Except.error err) :
    ReadMigrationFiles path (Except.ok (pre ++ name :: post)) re =
      ReadMigrationFiles path (Except.ok (pre ++ post)) re := by
  have he : ReadMigrationFiles.entry re name = none := (entry_eq_none re name).mpr ⟨err, herr⟩
  simp only [ReadMigrationFiles, scan_skip re name pre post _ _ he]

/-- An instance of the amended C10: the name whose digits do not fit 64 bits. -/
theorem ReadMigrationFiles_skips_witness :
    parseFilenameSchema "99999999999999999999999_x.up.sh" (FilenameRegex "sh") =
      Except.error (Error.parseVersion "99999999999999999999999_x.up.sh") ∧
    ReadMigrationFiles "dir"
        (Except.ok (["1_a.up.sh"] ++ "99999999999999999999999_x.up.sh" :: ["README.md"]))
        (FilenameRegex "sh") =
      ReadMigrationFiles "dir" (Except.ok (["1_a.up.sh"] ++ ["README.md"])) (FilenameRegex "sh") :=
  ⟨by rfl, ReadMigrationFiles_skips "dir" "99999999999999999999999_x.up.sh" ["1_a.up.sh"]
    ["README.md"] (FilenameRegex "sh") _ (by rfl)⟩


/-! ## The journal in memory: addVersion, removeVersion, Version -/

/-- C11, as the claim states it, fails: recording 7 twice on an empty journal
gives the list 7, 7, and recording 7 on the journal that holds 7 changes it. -/
theorem addVersion_twice :
    (Driver.addVersion (Driver.addVersion emptyDriver 7) 7).versions = [7, 7] ∧
    (Driver.addVersion (Driver.addVersion emptyDriver 7) 7).versions.count 7 = 2 ∧
    (Driver.addVersion { versionFile := "", versions := [7] } 7).versions ≠ [7] := by
  refine ⟨by decide, by decide, by decide⟩

/-- C11, amended: `addVersion` appends.  The list after the call is the list
before it followed by `v`; `v` occurs once more than before and every other
version as often as before, also when `v` was recorded already. -/
theorem addVersion_appends (driver : Driver) (v : Version) :
    (Driver.addVersion driver v).versions = driver.versions ++ [v] ∧
    (Driver.addVersion driver v).versionFile = driver.versionFile ∧
    (Driver.addVersion driver v).versions.count v = driver.versions.count v + 1 ∧
    (∀ w, w ≠ v → (Driver.addVersion driver v).versions.count w = driver.versions.count w) := by
  refine ⟨rfl, rfl, ?_, ?_⟩
  · simp [Driver.addVersion, List.count_append]
  · intro w hw
    have hvw : ¬ v = w := fun e => hw e.symm
    simp [Driver.addVersion, List.count_append, List.count_cons, hvw]

/-- An instance of the amended C11: recording 7 on the journal 3, 7. -/
theorem addVersion_appends_witness :
    (Driver.addVersion { versionFile := "f", versions := [3, 7] } 7).versions = [3, 7, 7] ∧
    (Driver.addVersion { versionFile := "f", versions := [3, 7] } 7).versions.count 3 =
      ([3, 7] : Versions).count 3 :=
  ⟨by decide,
    (addVersion_appends { versionFile := "f", versions := [3, 7] } 7).2.2.2 3 (by decide)⟩

theorem removeVersion_index (v : Version) (l : Versions) (i : Int) (hi : 0 ≤ i) :
    (v ∉ l ∧ Driver.removeVersion.index v l i = -1) ∨
    (∃ k : Nat, k < l.length ∧ Driver.removeVersion.index v l i = i + k ∧
      l.take k ++ l.drop (k + 1) = l.erase v) := by
  induction l generalizing i with
  | nil =>
    left
    exact ⟨List.not_mem_nil _, rfl⟩
  | cons ver rest ih =>
    unfold Driver.removeVersion.index
    by_cases h : ver = v
    · right
      subst h
      refine ⟨0, by simp, by simp, by simp⟩
    · have hb : (ver == v) = false := by simpa using h
      rw [hb]
      simp only [Bool.false_eq_true, if_false]
      rcases ih (i + 1) (by omega) with ⟨hmem, hidx⟩ | ⟨k, hk, hidx, htake⟩
      · left
        refine ⟨?_, hidx⟩
        intro hm
        rcases List.mem_cons.mp hm with e | e
        · exact h e.symm
        · exact hmem e
      · right
        refine ⟨k + 1, by simpa using hk, by rw [hidx]; push_cast; omega, ?_⟩
        rw [List.erase_cons_tail (by simpa using h)]
        simp [htake]

/-- What `removeVersion` does: it returns, and the list is the list before the
call without the first `v`. -/
theorem removeVersion_eq_erase (driver : Driver) (v : Version) :
    Driver.removeVersion driver v =
      Outcome.returned { driver with versions := driver.versions.erase v } := by
  unfold Driver.removeVersion
  rcases removeVersion_index v driver.versions 0 (Int.le_refl 0) with
    ⟨hmem, hidx⟩ | ⟨k, hk, hidx, htake⟩
  · simp only [hidx]
    rw [List.erase_of_not_mem hmem]
    rfl
  · have hidx2 : Driver.removeVersion.index v driver.versions 0 = (k : Int) := by
      rw [hidx]
      omega
    have h0 : ¬ ((k : Int) < 0) := by omega
    have h1 : 0 ≤ (k : Int) ∧ (k : Int) ≤ (driver.versions.length : Int) := by omega
    have h2 : 0 ≤ (k : Int) + 1 ∧ (k : Int) + 1 ≤ (driver.versions.length : Int) := by omega
    have h3 : ((k : Int) + 1).toNat = k + 1 := by omega
    simp only [hidx2, h0, if_false, sliceUpTo, sliceFrom, h1, h2, and_self, if_true,
      Int.toNat_ofNat, h3, htake]

/-- C12, as the claim states it, fails: after `removeVersion(7)` on the list
7, 7 the list is 7, which still contains 7. -/
theorem removeVersion_leaves_repetition :
    Driver.removeVersion { versionFile := "", versions := [7, 7] } 7 =
      Outcome.returned { versionFile := "", versions := [7] } ∧
    Versions.Contains [7] 7 = true := by
  refine ⟨by decide, by decide⟩

/-- C12, amended: `removeVersion(v)` returns without a panic, and the list
after the call is the list before it without the first occurrence of `v`.
Every other version keeps its multiplicity and the relative order is kept;
`v` is not contained any more when it occurred once at most, and the list is
as it was when `v` was absent. -/
theorem removeVersion_spec (driver : Driver) (v : Version) :
    ∃ after : Driver, Driver.removeVersion driver v = Outcome.returned after ∧
      after.versionFile = driver.versionFile ∧
      after.versions = driver.versions.erase v ∧
      after.versions.Sublist driver.versions ∧
      after.versions.filter (fun w => w != v) = driver.versions.filter (fun w => w != v) ∧
      (∀ w, w ≠ v → after.versions.count w = driver.versions.count w) ∧
      after.versions.count v = driver.versions.count v - 1 ∧
      (driver.versions.count v ≤ 1 → v ∉ after.versions) ∧
      (v ∉ driver.versions → after = driver) := by
  refine ⟨{ driver with versions := driver.versions.erase v }, removeVersion_eq_erase driver v,
    rfl, rfl, List.erase_sublist _ _, ?_, ?_, ?_, ?_, ?_⟩
  · show (driver.versions.erase v).filter (fun w => w != v) = _
    generalize driver.versions = l
    induction l with
    | nil => rfl
    | cons a l ih =>
      by_cases h : a = v
      · subst h
        simp
      · rw [List.erase_cons_tail (by simpa using h)]
        simp [List.filter_cons, h, ih]
  · intro w hw
    show (driver.versions.erase v).count w = _
    rw [List.count_erase_of_ne hw]
  · show (driver.versions.erase v).count v = _
    rw [List.count_erase_self]
  · intro hc
    show v ∉ driver.versions.erase v
    intro hmem
    have hpos : 0 < (driver.versions.erase v).count v := List.count_pos_iff.mpr hmem
    rw [List.count_erase_self] at hpos
    omega
  · intro hmem
    show ({ driver with versions := driver.versions.erase v } : Driver) = driver
    rw [List.erase_of_not_mem hmem]

/-- Instances of the amended C12: a version that occurs once, and an absent one. -/
theorem removeVersion_spec_witness :
    Driver.removeVersion { versionFile := "f", versions := [1, 7, 3] } 7 =
      Outcome.returned { versionFile := "f", versions := [1, 3] } ∧
    Driver.removeVersion { versionFile := "f", versions := [1, 3] } 7 =
      Outcome.returned { versionFile := "f", versions := [1, 3] } ∧
    ([1, 7, 3] : Versions).count 7 ≤ 1 ∧ (7 : Version) ∉ ([1, 3] : Versions) ∧
    (∃ after : Driver,
      Driver.removeVersion { versionFile := "f", versions := [1, 7, 3] } 7 =
        Outcome.returned after ∧
      after.versionFile = "f" ∧
      after.versions = ([1, 7, 3] : Versions).erase 7 ∧
      after.versions.Sublist [1, 7, 3] ∧
      after.versions.filter (fun w => w != 7) = ([1, 7, 3] : Versions).filter (fun w => w != 7) ∧
      (∀ w, w ≠ 7 → after.versions.count w = ([1, 7, 3] : Versions).count w) ∧
      after.versions.count 7 = ([1, 7, 3] : Versions).count 7 - 1 ∧
      (([1, 7, 3] : Versions).count 7 ≤ 1 → 7 ∉ after.versions) ∧
      (7 ∉ ([1, 7, 3] : Versions) →
        after = { versionFile := "f", versions := [1, 7, 3] })) :=
  ⟨by decide, by decide, by decide, by decide,
    removeVersion_spec { versionFile := "f", versions := [1, 7, 3] } 7⟩

/-- C13: after `Initialize` on the journal file with the lines 1 and 3 and
`addVersion(2)`, the list is 1, 3, 2 and `Version()` returns its last element,
2, where the claim gives the greatest recorded version, 3. -/
theorem Version_after_addVersion :
    Driver.Initialize emptyDriver "bash:/tmp/v" (oneFile "/tmp/v" "1\n3\n") =
      Outcome.returned ({ versionFile := "/tmp/v", versions := [1, 3] }, none) ∧
    (Driver.addVersion { versionFile := "/tmp/v", versions := [1, 3] } 2).versions = [1, 3, 2] ∧
    Driver.Version (Driver.addVersion { versionFile := "/tmp/v", versions := [1, 3] } 2) =
      Outcome.returned (2, none) ∧
    (3 : Version) ∈ (Driver.addVersion { versionFile := "/tmp/v", versions := [1, 3] } 2).versions := by
  refine ⟨by decide, by decide, by decide, by decide⟩

/-- C14: `Initialize` on a version file that cannot be opened leaves an empty
list and returns nil, and on every driver with an empty list `Version()`
panics at the index `len(driver.versions)-1`, which is -1. -/
theorem Version_empty_panics (versionFile : String) :
    Driver.Initialize emptyDriver "bash:/tmp/v" (fun _ => none) =
      Outcome.returned ({ versionFile := "/tmp/v", versions := [] }, none) ∧
    Driver.Initialize emptyDriver "bash:/tmp/v" (oneFile "/tmp/v" "") =
      Outcome.returned ({ versionFile := "/tmp/v", versions := [] }, none) ∧
    Driver.Version { versionFile := versionFile, versions := [] } = Outcome.panicked := by
  refine ⟨by decide, by decide, rfl⟩

/-! ## Migrate -/

/-- C19: the outcome of `Migrate` does not depend on the error of `cmd.Wait`,
which the code drops: when the script fails, an up file is recorded and a down
file is unrecorded all the same.  With the journal empty and the up file of
version 5, the journal after the failed run holds 5. -/
theorem Migrate_ignores_failure (driver : Driver) (f : File) (run : ScriptRun)
    (waitErr : Option String) :
    Driver.Migrate driver f { run with waitErr := waitErr } = Driver.Migrate driver f run ∧
    Driver.Migrate emptyDriver (mkFile 5 Direction.Up) failedRun =
      MigrateOutcome.returned { versionFile := "", versions := [5] } [""] ∧
    Driver.Migrate { versionFile := "", versions := [5] } (mkFile 5 Direction.Down) failedRun =
      MigrateOutcome.returned { versionFile := "", versions := [] } [""] := by
  refine ⟨rfl, by decide, by decide⟩

/-! ## The decimal numeral of a version -/

theorem digit_char (k : Nat) (hk : k < 10) :
    (Char.ofNat (48 + k)).isDigit = true ∧ (Char.ofNat (48 + k)).toNat - 48 = k ∧
    (k ≠ 0 → Char.ofNat (48 + k) ≠ '0') := by
  have h : ∀ j : Fin 10, (Char.ofNat (48 + j.val)).isDigit = true ∧
      (Char.ofNat (48 + j.val)).toNat - 48 = j.val ∧
      (j.val ≠ 0 → Char.ofNat (48 + j.val) ≠ '0') := by decide
  exact h ⟨k, hk⟩

theorem digitsValue_append (ds : List Char) (c : Char) (m : Nat) :
    digitsValue (ds ++ [c]) m = digitsValue ds m * 10 + (c.toNat - 48) := by
  simp [digitsValue, List.foldl_append]

/-- The loop of the numeral puts in front of `acc` a non-empty string of
digits whose value is `n`, without a leading zero unless `n` is zero. -/
theorem formatUint_loop_spec (fuel n : Nat) (acc : List Char) (hn : n < fuel) :
    ∃ ds : List Char, formatUint.loop fuel n acc = ds ++ acc ∧ ds ≠ [] ∧
      (∀ c ∈ ds, c.isDigit = true) ∧
      (∀ m, digitsValue ds m = m * 10 ^ ds.length + n) ∧
      (n ≠ 0 → ds.head? ≠ some '0') := by
  induction fuel generalizing n acc with
  | zero => omega
  | succ fuel ih =>
    obtain ⟨hdig, hval, hnz⟩ := digit_char (n % 10) (Nat.mod_lt _ (by decide))
    unfold formatUint.loop
    by_cases h0 : n / 10 = 0
    · simp only [h0, if_true]
      have hlt : n < 10 := by omega
      have hmod : n % 10 = n := Nat.mod_eq_of_lt hlt
      refine ⟨[Char.ofNat (48 + n % 10)], rfl, by simp, ?_, ?_, ?_⟩
      · intro c hc
        rw [List.mem_singleton.mp hc]
        exact hdig
      · intro m
        simp only [digitsValue, List.foldl_cons, List.foldl_nil, List.length_singleton, pow_one]
        rw [hval, hmod]
      · intro hne
        simp only [List.head?_cons, ne_eq, Option.some.injEq]
        exact hnz (by rw [hmod]; exact hne)
    · simp only [h0, if_false]
      obtain ⟨ds, heq, hne, hds, hv, hhead⟩ :=
        ih (n / 10) (Char.ofNat (48 + n % 10) :: acc) (by omega)
      refine ⟨ds ++ [Char.ofNat (48 + n % 10)], by rw [heq]; simp, by simp, ?_, ?_, ?_⟩
      · intro c hc
        rcases List.mem_append.mp hc with h | h
        · exact hds c h
        · rw [List.mem_singleton.mp h]
          exact hdig
      · intro m
        rw [digitsValue_append, hv m, hval, List.length_append, List.length_singleton, pow_succ]
        have := Nat.div_add_mod n 10
        nlinarith [Nat.div_add_mod n 10]
      · intro _
        cases ds with
        | nil => exact absurd rfl hne
        | cons d ds' =>
          simp only [List.cons_append, List.head?_cons] at hhead ⊢
          exact hhead h0

/-- The numeral of `n` is a non-empty string of decimal digits that denotes
`n`, with no leading zero unless `n` is zero. -/
theorem formatUint_spec (n : Nat) :
    formatUint n ≠ [] ∧ (∀ c ∈ formatUint n, c.isDigit = true) ∧
    digitsValue (formatUint n) 0 = n ∧ (n ≠ 0 → (formatUint n).head? ≠ some '0') := by
  obtain ⟨ds, heq, hne, hds, hv, hhead⟩ := formatUint_loop_spec (n + 1) n [] (Nat.lt_succ_self n)
  have hfmt : formatUint n = ds := by
    unfold formatUint
    rw [heq, List.append_nil]
  rw [hfmt]
  refine ⟨hne, hds, ?_, hhead⟩
  rw [hv 0]
  simp

/-! ## Fscanf on the lines of a journal file -/

theorem digit_not_space (c : Char) (h : c.isDigit = true) :
    c ≠ '\r' ∧ c ≠ '\n' ∧ isSpace c = false := by
  refine ⟨?_, ?_, ?_⟩
  · rintro rfl
    revert h
    decide
  · rintro rfl
    revert h
    decide
  · simp only [Char.isDigit, Bool.and_eq_true, decide_eq_true_eq] at h
    have h1 : 48 ≤ c.val.toNat := by
      have := h.1
      rw [ge_iff_le, UInt32.le_def] at this
      simpa using this
    have h2 : c.val.toNat ≤ 57 := by
      have := h.2
      rw [UInt32.le_def] at this
      simpa using this
    have h3 : c.toNat = c.val.toNat := rfl
    unfold isSpace
    simp only [h3]
    rw [decide_eq_false_iff_not]
    omega

theorem SkipSpace_digit (c : Char) (rest : List Char) (h : c.isDigit = true) :
    SkipSpace (c :: rest) = some (c :: rest) := by
  obtain ⟨h1, h2, h3⟩ := digit_not_space c h
  unfold SkipSpace
  simp [h1, h2, h3]

theorem span_digits_then (ds body : List Char) (c : Char)
    (hdig : ∀ d ∈ ds, d.isDigit = true) (hc : c.isDigit = false) :
    (ds ++ c :: body).span Char.isDigit = (ds, c :: body) := by
  rw [List.span_eq_take_drop, List.takeWhile_append_of_pos hdig,
    List.dropWhile_append_of_pos hdig, List.takeWhile_cons, List.dropWhile_cons]
  simp [hc]

/-- `Fscanf` reads the line that `Fprintf` wrote for a version of 64 bits. -/
theorem Fscanf_line (v : Version) (rest : List Char) (hv : v < 18446744073709551616) :
    Fscanf (formatUint v ++ '\n' :: rest) = some (v, rest) := by
  obtain ⟨hne, hdig, hval, _⟩ := formatUint_spec v
  have hparse : ParseUint (String.mk (formatUint v)) = Except.ok v := by
    unfold ParseUint
    rw [if_neg hne]
    have := ParseUint_loop_ok (formatUint v) 0 hdig (by rw [hval]; exact hv)
    rw [hval] at this
    exact this
  have hspan := span_digits_then (formatUint v) rest '\n' hdig (by decide)
  have hdrop : List.dropWhile (fun c => isSpace c && c != '\n') ('\n' :: rest) = '\n' :: rest := by
    rw [List.dropWhile_cons]
    simp
  cases hf : formatUint v with
  | nil => exact absurd hf hne
  | cons d ds =>
    have hd : d.isDigit = true := hdig d (by rw [hf]; exact List.mem_cons_self _ _)
    rw [hf] at hspan hparse
    unfold Fscanf
    rw [List.cons_append, SkipSpace_digit d _ hd]
    simp only
    rw [← List.cons_append, hspan]
    simp only [hparse, hdrop]
    simp

theorem Fscanf_nil : Fscanf [] = none := rfl

theorem SkipSpace_length (l l2 : List Char) (h : SkipSpace l = some l2) :
    l2.length ≤ l.length := by
  induction l with
  | nil =>
    simp only [SkipSpace, Option.some.injEq] at h
    rw [← h]
  | cons r rest ih =>
    unfold SkipSpace at h
    split at h
    · exact Nat.le_succ_of_le (ih h)
    · split at h
      · cases h
      · split at h
        · simp only [Option.some.injEq] at h
          rw [← h]
        · exact Nat.le_succ_of_le (ih h)

/-- A call of `Fscanf` that returns a version has read one character at least. -/
theorem Fscanf_length (input rest : List Char) (v : Version)
    (h : Fscanf input = some (v, rest)) : rest.length < input.length := by
  unfold Fscanf at h
  split at h
  · cases h
  · cases h
  · next r rest1 hskip =>
    have hlen := SkipSpace_length _ _ hskip
    have hspan := List.span_eq_take_drop Char.isDigit (r :: rest1)
    have hsplit := List.takeWhile_append_dropWhile Char.isDigit (r :: rest1)
    generalize List.takeWhile Char.isDigit (r :: rest1) = tok at hspan hsplit
    generalize List.dropWhile Char.isDigit (r :: rest1) = rest2 at hspan hsplit
    rw [hspan] at h
    simp only at h
    split at h
    · cases h
    · next htok =>
      have hl2 : rest2.length < (r :: rest1).length := by
        rw [← hsplit, List.length_append]
        have : 0 < tok.length := List.length_pos.mpr htok
        omega
      have hsuf := List.dropWhile_suffix (fun c => isSpace c && c != '\n') (l := rest2)
      have hl3 := hsuf.length_le
      split at h
      · cases h
      · split at h
        · next hdw =>
          simp only [Option.some.injEq, Prod.mk.injEq] at h
          rw [← h.2]
          simp only [List.length_nil]
          omega
        · next c rest3 hdw =>
          rw [hdw] at hl3
          simp only [List.length_cons] at hl3
          split at h
          · simp only [Option.some.injEq, Prod.mk.injEq] at h
            rw [← h.2]
            omega
          · cases h

/-- The bound on the rounds of the loop of `Initialize` is never reached:
every bound above the length of the file gives the same list. -/
theorem Initialize_loop_fuel (fuel1 fuel2 : Nat) (input : List Char) (acc : Versions)
    (h1 : input.length < fuel1) (h2 : input.length < fuel2) :
    Driver.Initialize.loop fuel1 input acc = Driver.Initialize.loop fuel2 input acc := by
  induction fuel1 generalizing fuel2 input acc with
  | zero => omega
  | succ fuel1 ih =>
    cases fuel2 with
    | zero => omega
    | succ fuel2 =>
      unfold Driver.Initialize.loop
      cases hf : Fscanf input with
      | none => rfl
      | some r =>
        obtain ⟨v, rest⟩ := r
        have := Fscanf_length input rest v hf
        exact ih fuel2 rest _ (by omega) (by omega)

theorem writeVersions_loop_eq (vs : Versions) (wFile : List Char) :
    Driver.writeVersions.loop vs wFile = wFile ++ journalText vs := by
  induction vs generalizing wFile with
  | nil => simp [Driver.writeVersions.loop, journalText]
  | cons v vs ih =>
    unfold Driver.writeVersions.loop
    rw [ih]
    simp [journalText]

/-- The loop of `Initialize` on the lines of the versions `vs`, followed by
text at which `Fscanf` fails, reads `vs`. -/
theorem Initialize_loop_journalText (vs : Versions) (rest : List Char) (acc : Versions)
    (fuel : Nat) (hvs : ∀ v ∈ vs, v < 18446744073709551616) (hrest : Fscanf rest = none)
    (hfuel : (journalText vs ++ rest).length < fuel) :
    Driver.Initialize.loop fuel (journalText vs ++ rest) acc = acc ++ vs := by
  induction vs generalizing acc fuel with
  | nil =>
    cases fuel with
    | zero => omega
    | succ fuel =>
      simp only [journalText, List.map_nil, List.flatten_nil, List.nil_append,
        Driver.Initialize.loop, hrest, List.append_nil]
  | cons v vs ih =>
    have htext : journalText (v :: vs) ++ rest =
        formatUint v ++ '\n' :: (journalText vs ++ rest) := by
      simp [journalText]
    rw [htext] at hfuel ⊢
    cases fuel with
    | zero => omega
    | succ fuel =>
      unfold Driver.Initialize.loop
      rw [Fscanf_line v _ (hvs v (List.mem_cons_self _ _))]
      simp only
      rw [ih (acc ++ [v]) fuel (fun w hw => hvs w (List.mem_cons_of_mem _ hw))]
      · simp
      · simp only [List.length_append, List.length_cons] at hfuel ⊢
        omega

/-! ## The journal file: writeVersions and Initialize -/

theorem sortVersions_perm (vs : Versions) : (sortSort Versions.Less vs).Perm vs :=
  sortSort_perm Versions.Less vs

theorem sortVersions_pairwise (vs : Versions) :
    (sortSort Versions.Less vs).Pairwise (fun a b => a ≤ b) := by
  apply sortSort_pairwise Versions.Less (fun a b : Version => a ≤ b)
  · intro a b c hab hbc
    exact Nat.le_trans hab hbc
  · intro a b h
    simp only [Versions.Less, decide_eq_true_eq] at h
    exact Nat.le_of_lt h
  · intro a b h
    simp only [Versions.Less, decide_eq_false_iff_not] at h
    exact Nat.le_of_not_lt h

theorem sortVersions_idem (vs : Versions) :
    sortSort Versions.Less (sortSort Versions.Less vs) = sortSort Versions.Less vs :=
  List.eq_of_perm_of_sorted (r := fun a b : Version => a ≤ b)
    (sortVersions_perm _) (sortVersions_pairwise _) (sortVersions_pairwise vs)

/-- `Initialize` on a version file that holds the lines of the versions `vs`
and then text at which `Fscanf` fails: it returns nil and the list is `vs`,
sorted. -/
theorem Initialize_journalText (driver : Driver) (url : String)
    (openFile : String → Option String) (part : List Char) (content : String)
    (vs : Versions) (rest : List Char)
    (hurl : indexAt (stringsSplit ':' url.data) 1 = Outcome.returned part)
    (hopen : openFile (String.mk part) = some content)
    (hcontent : content.data = journalText vs ++ rest)
    (hvs : ∀ v ∈ vs, v < 18446744073709551616) (hrest : Fscanf rest = none) :
    Driver.Initialize driver url openFile =
      Outcome.returned
        ({ versionFile := String.mk part, versions := sortSort Versions.Less vs }, none) := by
  unfold Driver.Initialize
  simp only [hurl, hopen]
  rw [hcontent, Initialize_loop_journalText vs rest [] _ hvs hrest (Nat.lt_succ_self _)]
  simp

/-- C18: `Close` is `writeVersions`, and when the version file is created the
text written is the lines of the recorded versions in ascending order, each
line the decimal numeral of the version and one newline, nothing for the
empty list; the list in memory after the call is a permutation of the list
before it.  A numeral is a non-empty string of digits that denotes the
version, without a leading zero unless the version is zero. -/
theorem writeVersions_text (driver : Driver) :
    Driver.Close driver none = Driver.writeVersions driver none ∧
    Driver.writeVersions driver none =
      ({ driver with versions := sortSort Versions.Less driver.versions },
        some (String.mk (journalText (sortSort Versions.Less driver.versions))), none) ∧
    (sortSort Versions.Less driver.versions).Perm driver.versions ∧
    (sortSort Versions.Less driver.versions).Pairwise (fun a b => a ≤ b) ∧
    journalText [] = [] ∧
    (∀ v vs, journalText (v :: vs) = formatUint v ++ '\n' :: journalText vs) ∧
    (∀ v : Version, formatUint v ≠ [] ∧ (∀ c ∈ formatUint v, c.isDigit = true) ∧
      digitsValue (formatUint v) 0 = v ∧ (v ≠ 0 → (formatUint v).head? ≠ some '0')) := by
  refine ⟨rfl, ?_, sortVersions_perm _, sortVersions_pairwise _, rfl, ?_, formatUint_spec⟩
  · simp only [Driver.writeVersions, writeVersions_loop_eq, List.nil_append]
  · intro v vs
    simp [journalText]

/-- An instance of C18: the list 3, 1, 4, 1, 5. -/
theorem writeVersions_text_witness :
    Driver.writeVersions { versionFile := "f", versions := [3, 1, 4, 1, 5] } none =
      ({ versionFile := "f", versions := [1, 1, 3, 4, 5] }, some "1\n1\n3\n4\n5\n", none) ∧
    Driver.writeVersions { versionFile := "f", versions := [] } none =
      ({ versionFile := "f", versions := [] }, some "", none) ∧
    formatUint 1205 = ['1', '2', '0', '5'] ∧
    (formatUint 1205).head? ≠ some '0' :=
  ⟨by decide, by decide, by decide,
    ((writeVersions_text emptyDriver).2.2.2.2.2.2 1205).2.2.2 (by decide)⟩

/-- C15: when `Initialize` opens the text that `writeVersions` wrote for the
list `vs` of versions of 64 bits, it returns nil and the list in memory holds
the same versions as `vs`; it is the list `writeVersions` left in memory. -/
theorem journal_roundtrip (driver : Driver) (file url : String)
    (openFile : String → Option String) (part : List Char) (vs : Versions)
    (hvs : ∀ v ∈ vs, v < 2 ^ 64)
    (hurl : indexAt (stringsSplit ':' url.data) 1 = Outcome.returned part)
    (hopen : openFile (String.mk part) =
      (Driver.writeVersions { versionFile := file, versions := vs } none).2.1) :
    ∃ loaded : Driver,
      Driver.Initialize driver url openFile = Outcome.returned (loaded, none) ∧
      (∀ v, v ∈ loaded.versions ↔ v ∈ vs) ∧
      loaded.versions =
        (Driver.writeVersions { versionFile := file, versions := vs } none).1.versions := by
  have hw := (writeVersions_text { versionFile := file, versions := vs }).2.1
  rw [hw] at hopen
  simp only at hopen
  have hvs2 : ∀ v ∈ sortSort Versions.Less vs, v < 18446744073709551616 := by
    intro v hv
    have := hvs v ((sortVersions_perm vs).mem_iff.mp hv)
    simpa using this
  have hinit := Initialize_journalText driver url openFile part _ (sortSort Versions.Less vs) []
    hurl hopen (by simp) hvs2 Fscanf_nil
  rw [sortVersions_idem] at hinit
  refine ⟨_, hinit, ?_, ?_⟩
  · intro v
    exact (sortVersions_perm vs).mem_iff
  · rw [hw]

/-- The instance of C15 the specification gives: the list 3, 1, 4, 1, 5. -/
theorem journal_roundtrip_witness :
    (∀ v ∈ ([3, 1, 4, 1, 5] : Versions), v < 2 ^ 64) ∧
    Driver.Initialize emptyDriver "bash:/tmp/v" (oneFile "/tmp/v" "1\n1\n3\n4\n5\n") =
      Outcome.returned ({ versionFile := "/tmp/v", versions := [1, 1, 3, 4, 5] }, none) ∧
    (∃ loaded : Driver,
      Driver.Initialize emptyDriver "bash:/tmp/v" (oneFile "/tmp/v" "1\n1\n3\n4\n5\n") =
        Outcome.returned (loaded, none) ∧
      (∀ v, v ∈ loaded.versions ↔ v ∈ ([3, 1, 4, 1, 5] : Versions)) ∧
      loaded.versions =
        (Driver.writeVersions { versionFile := "/tmp/v", versions := [3, 1, 4, 1, 5] }
          none).1.versions) :=
  ⟨by decide, by decide,
    journal_roundtrip emptyDriver "/tmp/v" "bash:/tmp/v" (oneFile "/tmp/v" "1\n1\n3\n4\n5\n")
      "/tmp/v".data [3, 1, 4, 1, 5] (by decide) (by decide) (by decide)⟩

/-- C16, as the claim states it, fails: on the content with the lines 1, abc,
3 `Initialize` returns nil, with the version read before the line abc. -/
theorem Initialize_malformed_line :
    Fscanf "abc\n3\n".data = none ∧
    Driver.Initialize emptyDriver "bash:/tmp/v" (oneFile "/tmp/v" "1\nabc\n3\n") =
      Outcome.returned ({ versionFile := "/tmp/v", versions := [1] }, none) := by
  refine ⟨by decide, by decide⟩

/-- C16, amended: `Initialize` never returns an error; when it returns, the
error is nil.  On a content that holds well-formed lines and then text that
does not scan as a version, the list in memory is the versions of those
lines, sorted. -/
theorem Initialize_returns_nil (driver : Driver) (url : String)
    (openFile : String → Option String) :
    (Driver.Initialize driver url openFile = Outcome.panicked ∨
      ∃ loaded, Driver.Initialize driver url openFile = Outcome.returned (loaded, none)) ∧
    (∀ (part : List Char) (content : String) (vs : Versions) (rest : List Char),
      indexAt (stringsSplit ':' url.data) 1 = Outcome.returned part →
      openFile (String.mk part) = some content →
      content.data = journalText vs ++ rest →
      (∀ v ∈ vs, v < 2 ^ 64) → Fscanf rest = none →
      Driver.Initialize driver url openFile =
        Outcome.returned
          ({ versionFile := String.mk part, versions := sortSort Versions.Less vs }, none)) := by
  constructor
  · unfold Driver.Initialize
    cases hurl : indexAt (stringsSplit ':' url.data) 1 with
    | panicked =>
      left
      simp only [hurl]
    | returned part =>
      right
      cases hopen : openFile (String.mk part) with
      | none =>
        refine ⟨{ versionFile := String.mk part, versions := [] }, ?_⟩
        simp only [hurl, hopen]
      | some content =>
        refine ⟨{ versionFile := String.mk part,
                  versions := sortSort Versions.Less
                    (Driver.Initialize.loop (content.data.length + 1) content.data []) }, ?_⟩
        simp only [hurl, hopen]
  · intro part content vs rest hurl hopen hcontent hvs hrest
    exact Initialize_journalText driver url openFile part content vs rest hurl hopen hcontent
      (fun v hv => by simpa using hvs v hv) hrest

/-- An instance of the amended C16: the lines 3 and 1, then the line abc. -/
theorem Initialize_returns_nil_witness :
    Driver.Initialize emptyDriver "bash:/tmp/v" (oneFile "/tmp/v" "3\n1\nabc\n") =
      Outcome.returned
        ({ versionFile := String.mk "/tmp/v".data, versions := sortSort Versions.Less [3, 1] },
          none) ∧
    sortSort Versions.Less [3, 1] = [1, 3] :=
  ⟨(Initialize_returns_nil emptyDriver "bash:/tmp/v" (oneFile "/tmp/v" "3\n1\nabc\n")).2
      "/tmp/v".data "3\n1\nabc\n" [3, 1] "abc\n".data (by decide) (by decide) (by decide)
      (by decide) (by decide),
    by decide⟩

/-- C17, as the claim states it, fails: on the content with the lines 3, 1, 3
the list in memory after `Initialize` is 1, 3, 3, in which 3 occurs twice. -/
theorem Initialize_repeated_line :
    Driver.Initialize emptyDriver "bash:/tmp/v" (oneFile "/tmp/v" "3\n1\n3\n") =
      Outcome.returned ({ versionFile := "/tmp/v", versions := [1, 3, 3] }, none) ∧
    ([1, 3, 3] : Versions).count 3 = 2 ∧ ¬ ([1, 3, 3] : Versions).Nodup := by
  refine ⟨by decide, by decide, by decide⟩

/-- C17, amended: on a content made of the lines of the versions `vs`, in any
order and with repetitions, `Initialize` returns nil and the list in memory
is `vs` sorted ascending: it holds exactly the versions of the file, each as
many times as the file holds it. -/
theorem Initialize_sorts_lines (driver : Driver) (url : String)
    (openFile : String → Option String) (part : List Char) (content : String)
    (vs : Versions)
    (hurl : indexAt (stringsSplit ':' url.data) 1 = Outcome.returned part)
    (hopen : openFile (String.mk part) = some content)
    (hcontent : content.data = journalText vs)
    (hvs : ∀ v ∈ vs, v < 2 ^ 64) :
    ∃ loaded : Driver,
      Driver.Initialize driver url openFile = Outcome.returned (loaded, none) ∧
      loaded.versions.Perm vs ∧
      loaded.versions.Pairwise (fun a b => a ≤ b) ∧
      (∀ v, loaded.versions.count v = vs.count v) ∧
      (∀ v, v ∈ loaded.versions ↔ v ∈ vs) := by
  have hinit := Initialize_journalText driver url openFile part content vs [] hurl hopen
    (by simpa using hcontent) (fun v hv => by simpa using hvs v hv) Fscanf_nil
  exact ⟨_, hinit, sortVersions_perm vs, sortVersions_pairwise vs,
    fun v => (sortVersions_perm vs).count_eq v, fun v => (sortVersions_perm vs).mem_iff⟩

/-- An instance of the amended C17: the lines 3, 1, 3. -/
theorem Initialize_sorts_lines_witness :
    journalText [3, 1, 3] = "3\n1\n3\n".data ∧
    (∃ loaded : Driver,
      Driver.Initialize emptyDriver "bash:/tmp/v" (oneFile "/tmp/v" "3\n1\n3\n") =
        Outcome.returned (loaded, none) ∧
      loaded.versions.Perm [3, 1, 3] ∧
      loaded.versions.Pairwise (fun a b => a ≤ b) ∧
      (∀ v, loaded.versions.count v = ([3, 1, 3] : Versions).count v) ∧
      (∀ v, v ∈ loaded.versions ↔ v ∈ ([3, 1, 3] : Versions))) :=
  ⟨by decide,
    Initialize_sorts_lines emptyDriver "bash:/tmp/v" (oneFile "/tmp/v" "3\n1\n3\n")
      "/tmp/v".data "3\n1\n3\n" [3, 1, 3] (by decide) (by decide) (by decide) (by decide)⟩

/-! ## Pending and Applied together -/

theorem filter_map_side (g side : MigrationFile → Option File) (l : List MigrationFile)
    (hside : ∀ u, (g u).isSome = true → g u = side u) :
    (l.filter (fun u => (g u).isSome)).map side = (l.filterMap g).map some := by
  rw [← filter_map_eq_filterMap]
  apply List.map_congr_left
  intro u hu
  exact (hside u (List.mem_filter.mp hu).2).symm

theorem count_filter_perm (p : MigrationFile → Bool) (l mf : List MigrationFile)
    (hp : l.Perm mf) (u : MigrationFile) :
    (l.filter p).count u = if p u = true then mf.count u else 0 := by
  by_cases h : p u = true
  · rw [if_pos h, List.count_filter h, hp.count_eq]
  · rw [if_neg h, List.count_eq_zero]
    intro hmem
    exact h (List.mem_filter.mp hmem).2

/-- C20: the files of `Pending(vs)` are the up files of a list `ups` of units
of the set whose versions are not in `vs`, and the files of `Applied(vs)` are
the down files of a list `downs` of units whose versions are in `vs`; no
version of `ups` is a version of `downs`, and a unit with both files is in
exactly one of the two lists, as many times as it is in the set.  `Applied`
may be called on the set in any order, such as the one `Pending` left. -/
theorem pending_applied_disjoint (mf mf2 : MigrationFiles) (vs : Versions)
    (hperm : mf2.Perm mf) :
    ∃ ups downs : List MigrationFile,
      ups.map (fun u => u.UpFile) = (Pending mf vs).2.1.map some ∧
      downs.map (fun u => u.DownFile) = (Applied mf2 vs).2.1.map some ∧
      (∀ u ∈ ups, u ∈ mf ∧ u.Version ∉ vs ∧ u.UpFile ≠ none) ∧
      (∀ u ∈ downs, u ∈ mf ∧ u.Version ∈ vs ∧ u.DownFile ≠ none) ∧
      (∀ a ∈ ups, ∀ b ∈ downs, a.Version ≠ b.Version) ∧
      (∀ u, u.UpFile ≠ none → u.DownFile ≠ none →
        ups.count u + downs.count u = mf.count u ∧ (ups.count u = 0 ∨ downs.count u = 0)) := by
  have hP := sortSort_perm MigrationFiles.Less mf
  have hA := (sortSort_perm MigrationFiles.ReverseLess mf2).trans hperm
  have hups : ∀ u : MigrationFile,
      ((if Versions.Contains vs u.Version = true then none else u.UpFile).isSome = true ↔
      (u.Version ∉ vs ∧ u.UpFile ≠ none)) := by
    intro u
    simp only [← Versions_contains_iff]
    cases hc : Versions.Contains vs u.Version <;> cases hu : u.UpFile <;> simp [hc, hu]
  have hdowns : ∀ u : MigrationFile,
      ((if Versions.Contains vs u.Version = true then u.DownFile else none).isSome = true ↔
      (u.Version ∈ vs ∧ u.DownFile ≠ none)) := by
    intro u
    simp only [← Versions_contains_iff]
    cases hc : Versions.Contains vs u.Version <;> cases hu : u.DownFile <;> simp [hc, hu]
  refine ⟨(sortSort MigrationFiles.Less mf).filter
      (fun u => (if Versions.Contains vs u.Version = true then none else u.UpFile).isSome),
    (sortSort MigrationFiles.ReverseLess mf2).filter
      (fun u => (if Versions.Contains vs u.Version = true then u.DownFile else none).isSome),
    ?_, ?_, ?_, ?_, ?_, ?_⟩
  · simp only [Pending, Pending_loop_eq, List.nil_append]
    apply filter_map_side
    intro u
    cases hc : Versions.Contains vs u.Version <;> simp [hc]
  · simp only [Applied, Applied_loop_eq, List.nil_append]
    apply filter_map_side
    intro u
    cases hc : Versions.Contains vs u.Version <;> simp [hc]
  · intro u hu
    obtain ⟨h1, h2⟩ := List.mem_filter.mp hu
    exact ⟨hP.mem_iff.mp h1, (hups u).mp h2⟩
  · intro u hu
    obtain ⟨h1, h2⟩ := List.mem_filter.mp hu
    exact ⟨hA.mem_iff.mp h1, (hdowns u).mp h2⟩
  · intro a ha b hb hab
    have h1 := ((hups a).mp (List.mem_filter.mp ha).2).1
    have h2 := ((hdowns b).mp (List.mem_filter.mp hb).2).1
    rw [hab] at h1
    exact h1 h2
  · intro u hup hdown
    rw [count_filter_perm _ _ mf hP u, count_filter_perm _ _ mf hA u]
    by_cases hv : u.Version ∈ vs
    · have h1 : ¬ ((if Versions.Contains vs u.Version = true then none else u.UpFile).isSome = true) :=
        fun h => ((hups u).mp h).1 hv
      have h2 : (if Versions.Contains vs u.Version = true then u.DownFile else none).isSome = true :=
        (hdowns u).mpr ⟨hv, hdown⟩
      rw [if_neg h1, if_pos h2]
      exact ⟨Nat.zero_add _, Or.inl rfl⟩
    · have h1 : (if Versions.Contains vs u.Version = true then none else u.UpFile).isSome = true :=
        (hups u).mpr ⟨hv, hup⟩
      have h2 : ¬ ((if Versions.Contains vs u.Version = true then u.DownFile else none).isSome = true) :=
        fun h => hv ((hdowns u).mp h).1
      rw [if_pos h1, if_neg h2]
      exact ⟨Nat.add_zero _, Or.inr rfl⟩

/-- An instance of C20: the units 1, 2, 3 with the version 1 applied, `Applied`
called on the set as `Pending` left it. -/
theorem pending_applied_disjoint_witness :
    (Pending set123 [1]).1.Perm set123 ∧
    (Pending set123 [1]).2.1 = [mkFile 2 Direction.Up, mkFile 3 Direction.Up] ∧
    (Applied (Pending set123 [1]).1 [1]).2.1 = [mkFile 1 Direction.Down] ∧
    (∃ ups downs : List MigrationFile,
      ups.map (fun u => u.UpFile) = (Pending set123 [1]).2.1.map some ∧
      downs.map (fun u => u.DownFile) = (Applied (Pending set123 [1]).1 [1]).2.1.map some ∧
      (∀ u ∈ ups, u ∈ set123 ∧ u.Version ∉ [1] ∧ u.UpFile ≠ none) ∧
      (∀ u ∈ downs, u ∈ set123 ∧ u.Version ∈ [1] ∧ u.DownFile ≠ none) ∧
      (∀ a ∈ ups, ∀ b ∈ downs, a.Version ≠ b.Version) ∧
      (∀ u, u.UpFile ≠ none → u.DownFile ≠ none →
        ups.count u + downs.count u = set123.count u ∧
          (ups.count u = 0 ∨ downs.count u = 0))) :=
  ⟨sortSort_perm _ _, by decide, by decide,
    pending_applied_disjoint set123 (Pending set123 [1]).1 [1] (sortSort_perm _ _)⟩

end Migrate
